import Mathlib

/-!
Verification of the settlement engine and expense handler of the
better-splitwise application (src/app.py), against its specification.

Python dictionaries are modelled as association lists in insertion order:
updating an existing key keeps its position, a fresh key is appended at the
end, exactly as CPython dicts behave.  `defaultdict(float)` reads that create
entries are modelled explicitly wherever the program performs them.  Currency
amounts (Python floats) are modelled as exact rationals, user ids as naturals
and names as strings.
-/

set_option maxHeartbeats 1600000

namespace BetterSplitwise

/-- Lookup in the association-list model of a Python dict (first entry wins;
construction keeps keys unique). -/
def lookupA {α β : Type} [DecidableEq α] : List (α × β) → α → Option β
  | [], _ => none
  | (k, v) :: rest, a => if k = a then some v else lookupA rest a

/-- Python dict assignment `d[k] = v`: replace the value of an existing key in
place, otherwise append the new key at the end. -/
def setA {α β : Type} [DecidableEq α] : List (α × β) → α → β → List (α × β)
  | [], a, b => [(a, b)]
  | (k, v) :: rest, a, b => if k = a then (k, b) :: rest else (k, v) :: setA rest a b

/-- Key list of a dict, in insertion order (Python `list(d.keys())`). -/
def keysA {α β : Type} (l : List (α × β)) : List α := l.map Prod.fst

/-- Inner debt dict of one debtor: creditor id to accumulated amount. -/
abbrev Inner := List (Nat × ℚ)

/-- Nested debt structure `debts[debtor][creditor]` of `compute_settlements`. -/
abbrev Debts := List (Nat × Inner)

/-- One expense row together with its participant rows, as fetched by
`compute_settlements` (src/app.py lines 114-119). -/
structure Expense where
  payerId : Nat
  desc : String
  participants : List (Nat × ℚ)
  deriving DecidableEq

/-- One payment row, as fetched by `compute_settlements` (line 126). -/
structure Payment where
  payerId : Nat
  payeeId : Nat
  amount : ℚ
  deriving DecidableEq

/-- The snapshot of one group that the engine reads: expenses with their
participant shares, payments, and the users table id-to-name mapping. -/
structure Snapshot where
  expenses : List Expense
  payments : List Payment
  idToName : List (Nat × String)
  deriving DecidableEq

/-- Inner dict of a debtor, empty when absent (`defaultdict` read of
`debts[u]` used for further reads). -/
def innerOf (debts : Debts) (u : Nat) : Inner := (lookupA debts u).getD []

/-- Amount stored at `debts[u][v]`, `0` when either key is absent. -/
def dval (debts : Debts) (u v : Nat) : ℚ :=
  ((lookupA (innerOf debts u) v).getD 0)

/-- Source line 122, `debts[uid][payer_id] += share` on the nested
`defaultdict`: both keys are created when absent. -/
def addDebt (debts : Debts) (uid payer : Nat) (share : ℚ) : Debts :=
  let inn := innerOf debts uid
  setA debts uid (setA inn payer ((lookupA inn payer).getD 0 + share))

/-- Step A state: the debt structure and the `per_expense_readable` rows
`(uid, payer_id, share, desc)` accumulated so far. -/
abbrev StepAState := Debts × List (Nat × Nat × ℚ × String)

/-- Source lines 120-123, one participant row: when the participant differs
from the payer, add the share to the debts and append a readable row. -/
def stepAPart (pid : Nat) (dsc : String) (st : StepAState) (pr : Nat × ℚ) : StepAState :=
  if pr.1 ≠ pid then
    (addDebt st.1 pr.1 pid pr.2, st.2 ++ [(pr.1, pid, pr.2, dsc)])
  else st

/-- Source lines 120-123: fold one expense's participant rows into the debts
and the readable list, skipping the payer's own row. -/
def stepAExpense (st : StepAState) (e : Expense) : StepAState :=
  e.participants.foldl (stepAPart e.payerId e.desc) st

/-- Source lines 117-123 (Step A): accumulate raw debts over all expenses. -/
def stepA (expenses : List Expense) : StepAState :=
  expenses.foldl stepAExpense ([], [])

/-- Source lines 130-132: after `debts[payer][payee] -= amount` left value `v`,
reverse the debt when `v` went negative (`debts[payee][payer] = -v` then
`debts[payer][payee] = 0`), else keep the structure. -/
def reverseIfNeg (d1 : Debts) (p q : Nat) (v : ℚ) : Debts :=
  if v < 0 then
    let inn2 := innerOf d1 q
    let d2 := setA d1 q (setA inn2 p (-v))
    let inn3 := innerOf d2 p
    setA d2 p (setA inn3 q 0)
  else d1

/-- Source lines 128-132 (one iteration of Step B): subtract the payment from
`debts[payer][payee]` (creating both keys, `defaultdict` semantics) and
reverse an overpaid debt. -/
def applyPayment (debts : Debts) (pay : Payment) : Debts :=
  let inn := innerOf debts pay.payerId
  let cur := (lookupA inn pay.payeeId).getD 0
  let v := cur - pay.amount
  reverseIfNeg (setA debts pay.payerId (setA inn pay.payeeId v)) pay.payerId pay.payeeId v

/-- Source lines 128-132 (Step B): apply all recorded payments in order. -/
def stepB (debts : Debts) (ps : List Payment) : Debts :=
  ps.foldl applyPayment debts

/-- One final settlement `(payer name, payee name, amount)`. -/
abbrev Settl := String × String × ℚ

/-- Visit list of the Step C double loop (lines 141-142): all ordered pairs
`(u, v)` with `u` an outer key and `v` a key of `debts[u]`, in iteration
order.  The loop iterates snapshots of the key lists, and the only structure
mutation inside the loop creates empty inner dicts for fresh outer keys, so
the visited pairs and all values read are those of the structure at entry. -/
def visits (debts : Debts) : List (Nat × Nat) :=
  (keysA debts).flatMap (fun u => (keysA (innerOf debts u)).map (fun v => (u, v)))

/-- Source lines 141-150, the Step C loop body over the visit list, threading
the `processed_pairs` set and the `final_settlements` accumulator.  A name
lookup `id_to_name[u]` on a missing id is a Python `KeyError`, modelled as
`none`. -/
def stepCfold (debts : Debts) (names : List (Nat × String)) :
    List (Nat × Nat) → List (Nat × Nat) → List Settl →
    Option (List Settl × List (Nat × Nat))
  | [], processed, acc => some (acc, processed)
  | (u, v) :: rest, processed, acc =>
    if (v, u) ∈ processed then stepCfold debts names rest processed acc
    else if 0 < dval debts u v - dval debts v u then
      match lookupA names u, lookupA names v with
      | some nu, some nv =>
          stepCfold debts names rest ((u, v) :: processed)
            (acc ++ [(nu, nv, dval debts u v - dval debts v u)])
      | _, _ => none
    else if dval debts u v - dval debts v u < 0 then
      match lookupA names v, lookupA names u with
      | some nv, some nu =>
          stepCfold debts names rest ((u, v) :: processed)
            (acc ++ [(nv, nu, -(dval debts u v - dval debts v u))])
      | _, _ => none
    else stepCfold debts names rest ((u, v) :: processed) acc

/-- Source lines 139-150 (Step C): the final pairwise settlements. -/
def stepC (debts : Debts) (names : List (Nat × String)) : Option (List Settl) :=
  (stepCfold debts names (visits debts) [] []).map Prod.fst

/-- Source lines 153-156: render the readable rows through `id_to_name`,
keeping the structured tuple `(debtor name, payer name, share, desc)`. -/
def renderReadable (names : List (Nat × String)) :
    List (Nat × Nat × ℚ × String) → Option (List (String × String × ℚ × String))
  | [] => some []
  | (u, payer, sh, d) :: rest =>
    match lookupA names u, lookupA names payer, renderReadable names rest with
    | some nu, some np, some r => some ((nu, np, sh, d) :: r)
    | _, _, _ => none

/-- Source lines 159-162: fold the final settlements into the
`net_balance` defaultdict. -/
def netBalanceAux : List Settl → List (String × ℚ) → List (String × ℚ)
  | [], nb => nb
  | (u, v, amt) :: rest, nb =>
    let nb1 := setA nb u ((lookupA nb u).getD 0 - amt)
    let nb2 := setA nb1 v ((lookupA nb1 v).getD 0 + amt)
    netBalanceAux rest nb2

/-- Net balance per participant, built only from the final settlements. -/
def netBalance (fs : List Settl) : List (String × ℚ) := netBalanceAux fs []

/-- The full result of `compute_settlements`: final settlements, per-expense
readable rows, net balances. -/
abbrev EngineResult :=
  List Settl × List (String × String × ℚ × String) × List (String × ℚ)

/-- Source lines 109-164: the settlement engine on one group snapshot.
`none` models an uncaught `KeyError` from a missing display name. -/
def compute_settlements (s : Snapshot) : Option EngineResult :=
  let a := stepA s.expenses
  let debts := stepB a.1 s.payments
  match stepC debts s.idToName, renderReadable s.idToName a.2 with
  | some fs, some pe => some (fs, pe, netBalance fs)
  | _, _ => none

/-- Split rule selected in the Add Expense form (line 221). -/
inductive SplitType
  | Equal | Custom | Percentage
  deriving DecidableEq

/-- Data of one submission of the Add Expense form. -/
structure ExpenseForm where
  desc : String
  payer : String
  amount : ℚ
  split : SplitType
  participants : List String
  customShares : List (String × ℚ)
  deriving DecidableEq

/-- The Python list comprehension `[custom_shares[p] for p in participants]`;
a missing entry is a `KeyError`, modelled as `none`. -/
def lookupShares (customShares : List (String × ℚ)) : List String → Option (List ℚ)
  | [] => some []
  | p :: rest =>
    match lookupA customShares p, lookupShares customShares rest with
    | some v, some r => some (v :: r)
    | _, _ => none

/-- Source lines 234-257, the Add Expense handler up to the database insert:
the validation gates, then the computed share list.  `none` means the
submission is rejected (or a missing share entry) and nothing is stored. -/
def addExpenseShares (f : ExpenseForm) : Option (List ℚ) :=
  if f.desc = "" ∨ f.payer = "" ∨ f.amount ≤ 0 ∨ f.participants = [] then none
  else if f.payer ∉ f.participants then none
  else if ¬ f.participants.Nodup then none
  else match f.split with
    | .Equal =>
        some (List.replicate f.participants.length (f.amount / f.participants.length))
    | .Custom => lookupShares f.customShares f.participants
    | .Percentage =>
        match lookupShares f.customShares f.participants with
        | none => none
        | some pcts =>
            if pcts.sum ≠ 100 then none
            else some (pcts.map (fun p => f.amount * p / 100))

/-- Entries of a settlement list that concern the unordered name pair
`{nu, nv}` (either direction). -/
def pairEntriesFor (nu nv : String) (l : List Settl) : List Settl :=
  l.filter (fun e => (e.1 = nu ∧ e.2.1 = nv) ∨ (e.1 = nv ∧ e.2.1 = nu))

/-- Names appearing in some final settlement, with multiplicity. -/
def namesOf (fs : List Settl) : List String := fs.flatMap (fun e => [e.1, e.2.1])

/-- Signed total of a name over a settlement list: each settlement counts
`+amount` to its creditor and `-amount` to its debtor. -/
def balanceOf (n : String) (fs : List Settl) : ℚ :=
  (fs.map (fun e => (if e.2.1 = n then e.2.2 else 0) - (if e.1 = n then e.2.2 else 0))).sum

/-- Sum of the values of a name-keyed dict. -/
def sumValues (l : List (String × ℚ)) : ℚ := (l.map Prod.snd).sum

/-- User ids referenced by one expense row and its participant rows. -/
def expenseIds (e : Expense) : List Nat := e.payerId :: e.participants.map Prod.fst

/-- All user ids referenced anywhere in a snapshot. -/
def snapshotIds (s : Snapshot) : List Nat :=
  s.expenses.flatMap expenseIds ++ s.payments.flatMap (fun p => [p.payerId, p.payeeId])

/-- All ids appearing as outer or inner keys of a debt structure. -/
def allIds (d : Debts) : List Nat := keysA d ++ d.flatMap (fun kv => keysA kv.2)

/-- Display names are pairwise distinct (the users table has a UNIQUE
constraint on `name`). -/
abbrev NamesInj (names : List (Nat × String)) : Prop := (names.map Prod.snd).Nodup

/-- Well-formedness every Python nested dict enjoys: outer keys are distinct
and each inner key list is distinct. -/
abbrev WFDebts (d : Debts) : Prop := (keysA d).Nodup ∧ ∀ kv ∈ d, (keysA kv.2).Nodup

/-- Every stored debt amount is non-negative. -/
abbrev EntriesNonneg (d : Debts) : Prop := ∀ kv ∈ d, ∀ pr ∈ kv.2, 0 ≤ pr.2

/-- Every share recorded in the snapshot is non-negative. -/
abbrev SharesNonneg (s : Snapshot) : Prop :=
  ∀ e ∈ s.expenses, ∀ pr ∈ e.participants, 0 ≤ pr.2

/-! Basic lemmas about the dict model. -/

@[simp] theorem lookupA_nil {α β : Type} [DecidableEq α] (a : α) :
    lookupA ([] : List (α × β)) a = none := rfl

theorem lookupA_cons {α β : Type} [DecidableEq α] (k a : α) (v : β) (rest : List (α × β)) :
    lookupA ((k, v) :: rest) a = if k = a then some v else lookupA rest a := rfl

theorem setA_cons {α β : Type} [DecidableEq α] (k a : α) (v b : β) (rest : List (α × β)) :
    setA ((k, v) :: rest) a b = if k = a then (k, b) :: rest else (k, v) :: setA rest a b := rfl

@[simp] theorem keysA_nil {α β : Type} : keysA ([] : List (α × β)) = [] := rfl

@[simp] theorem keysA_cons {α β : Type} (p : α × β) (l : List (α × β)) :
    keysA (p :: l) = p.1 :: keysA l := rfl

@[simp] theorem keysA_append {α β : Type} (l m : List (α × β)) :
    keysA (l ++ m) = keysA l ++ keysA m := by
  simp [keysA]

@[simp] theorem lookupA_setA_self {α β : Type} [DecidableEq α]
    (l : List (α × β)) (k : α) (v : β) : lookupA (setA l k v) k = some v := by
  induction l with
  | nil => simp [setA, lookupA]
  | cons h t ih =>
    obtain ⟨a, b⟩ := h
    rw [setA_cons]
    by_cases hk : a = k
    · simp [hk, lookupA_cons]
    · simp [hk, lookupA_cons, ih]

theorem lookupA_setA_ne {α β : Type} [DecidableEq α]
    (l : List (α × β)) (k a : α) (v : β) (h : a ≠ k) :
    lookupA (setA l k v) a = lookupA l a := by
  induction l with
  | nil => simp [setA, lookupA_cons, Ne.symm h]
  | cons hd t ih =>
    obtain ⟨x, y⟩ := hd
    rw [setA_cons]
    by_cases hx : x = k
    · subst hx
      simp [lookupA_cons, Ne.symm h]
    · rw [if_neg hx, lookupA_cons, lookupA_cons, ih]

theorem setA_setA {α β : Type} [DecidableEq α] (l : List (α × β)) (k : α) (v w : β) :
    setA (setA l k v) k w = setA l k w := by
  induction l with
  | nil => simp [setA]
  | cons h t ih =>
    obtain ⟨a, b⟩ := h
    rw [setA_cons]
    by_cases hk : a = k
    · simp [setA_cons, hk]
    · simp [setA_cons, hk, ih]

theorem setA_lookup_self {α β : Type} [DecidableEq α]
    (l : List (α × β)) (k : α) (v : β) (h : lookupA l k = some v) : setA l k v = l := by
  induction l with
  | nil => simp [lookupA] at h
  | cons hd t ih =>
    obtain ⟨a, b⟩ := hd
    rw [lookupA_cons] at h
    rw [setA_cons]
    by_cases hk : a = k
    · simp only [if_pos hk] at h ⊢
      obtain rfl := Option.some_injective _ h
      rfl
    · simp only [if_neg hk] at h ⊢
      rw [ih h]

theorem lookupA_eq_none_iff {α β : Type} [DecidableEq α] (l : List (α × β)) (a : α) :
    lookupA l a = none ↔ a ∉ keysA l := by
  induction l with
  | nil => simp
  | cons hd t ih =>
    obtain ⟨x, y⟩ := hd
    rw [lookupA_cons]
    by_cases hx : x = a
    · simp [hx]
    · simp [hx, ih, Ne.symm hx]

theorem lookupA_isSome_iff {α β : Type} [DecidableEq α] (l : List (α × β)) (a : α) :
    (lookupA l a).isSome ↔ a ∈ keysA l := by
  constructor
  · intro h
    by_contra hmem
    rw [← lookupA_eq_none_iff] at hmem
    rw [hmem] at h
    simp at h
  · intro h
    cases hl : lookupA l a with
    | none => exact absurd ((lookupA_eq_none_iff l a).1 hl) (by simp [h])
    | some v => simp

theorem lookupA_mem {α β : Type} [DecidableEq α]
    {l : List (α × β)} {a : α} {v : β} (h : lookupA l a = some v) : (a, v) ∈ l := by
  induction l with
  | nil => simp [lookupA] at h
  | cons hd t ih =>
    obtain ⟨x, y⟩ := hd
    rw [lookupA_cons] at h
    by_cases hx : x = a
    · simp only [if_pos hx] at h
      obtain rfl := Option.some_injective _ h
      simp [hx]
    · simp only [if_neg hx] at h
      exact List.mem_cons_of_mem _ (ih h)

theorem keysA_setA_mem {α β : Type} [DecidableEq α]
    (l : List (α × β)) (k : α) (v : β) (h : k ∈ keysA l) : keysA (setA l k v) = keysA l := by
  induction l with
  | nil => simp at h
  | cons hd t ih =>
    obtain ⟨x, y⟩ := hd
    rw [setA_cons]
    by_cases hx : x = k
    · simp [hx]
    · have ht : k ∈ keysA t := by
        rcases (List.mem_cons).1 h with h1 | h1
        · exact absurd h1.symm hx
        · exact h1
      simp [hx, ih ht]

theorem setA_of_not_mem {α β : Type} [DecidableEq α]
    (l : List (α × β)) (k : α) (v : β) (h : k ∉ keysA l) : setA l k v = l ++ [(k, v)] := by
  induction l with
  | nil => simp [setA]
  | cons hd t ih =>
    obtain ⟨x, y⟩ := hd
    simp only [keysA_cons, List.mem_cons] at h
    push_neg at h
    rw [setA_cons, if_neg (Ne.symm h.1), ih h.2]
    simp

theorem keysA_setA_not_mem {α β : Type} [DecidableEq α]
    (l : List (α × β)) (k : α) (v : β) (h : k ∉ keysA l) :
    keysA (setA l k v) = keysA l ++ [k] := by
  rw [setA_of_not_mem l k v h]
  simp [keysA]

theorem keysA_setA_nodup {α β : Type} [DecidableEq α]
    (l : List (α × β)) (k : α) (v : β) (h : (keysA l).Nodup) :
    (keysA (setA l k v)).Nodup := by
  by_cases hk : k ∈ keysA l
  · rw [keysA_setA_mem l k v hk]; exact h
  · rw [keysA_setA_not_mem l k v hk]
    simp [List.nodup_append, h, hk]

/-! Lemmas about the debt structure operations. -/

@[simp] theorem innerOf_setA_self (d : Debts) (k : Nat) (x : Inner) :
    innerOf (setA d k x) k = x := by
  simp [innerOf]

theorem innerOf_setA_ne (d : Debts) (k u : Nat) (x : Inner) (h : u ≠ k) :
    innerOf (setA d k x) u = innerOf d u := by
  simp [innerOf, lookupA_setA_ne _ _ _ _ h]

theorem dval_addDebt_self (d : Debts) (a b : Nat) (s : ℚ) :
    dval (addDebt d a b s) a b = dval d a b + s := by
  simp [dval, addDebt, innerOf]

theorem dval_addDebt_other (d : Debts) (a b u v : Nat) (s : ℚ)
    (h : ¬ (u = a ∧ v = b)) : dval (addDebt d a b s) u v = dval d u v := by
  by_cases hu : u = a
  · subst hu
    have hv : v ≠ b := fun e => h ⟨rfl, e⟩
    simp [dval, addDebt, innerOf, lookupA_setA_ne _ _ _ _ hv]
  · simp [dval, addDebt, innerOf, lookupA_setA_ne _ _ _ _ hu]

theorem sub_lt_zero_iff {a b : ℚ} : a - b < 0 ↔ a < b := sub_neg

/-- C2 (amended): two payments on the same ordered (payer, payee) pair
accumulate (Step B for both equals Step B for a single payment of the summed
amount) provided the earlier payment does not exceed the debt present in
that direction when it is applied, i.e. no reversal fires strictly before the
last payment; an overpayment reversal makes a later payment on the pair
overwrite the earlier excess instead of adding to it. -/
theorem applyPayment_accumulate (d : Debts) (p q : Nat) (a1 a2 : ℚ)
    (h : a1 ≤ dval d p q) :
    applyPayment (applyPayment d ⟨p, q, a1⟩) ⟨p, q, a2⟩ = applyPayment d ⟨p, q, a1 + a2⟩ := by
  have hv1 : ¬ (dval d p q - a1 < 0) := not_lt.mpr (sub_nonneg.mpr h)
  simp only [applyPayment, reverseIfNeg, dval] at hv1 ⊢
  rw [if_neg hv1]
  simp only [innerOf_setA_self, lookupA_setA_self, Option.getD_some, setA_setA]
  have harith : (lookupA (innerOf d p) q).getD 0 - a1 - a2 =
      (lookupA (innerOf d p) q).getD 0 - (a1 + a2) := by ring
  rw [harith]

/-- C2 counterexample: with debt A owes B 100, the payments 150 and 10 from
A to B applied in sequence leave debt[B][A] = 10 (the second reversal
overwrites the first excess of 50), while a single payment of 160 leaves
debt[B][A] = 60, so the two payments are not cumulative. -/
theorem applyPayment_accumulate_cex :
    applyPayment (applyPayment [(1, [(2, (100 : ℚ))])] ⟨1, 2, 150⟩) ⟨1, 2, 10⟩ ≠
      applyPayment [(1, [(2, (100 : ℚ))])] ⟨1, 2, 160⟩ := by
  norm_num [applyPayment, reverseIfNeg, innerOf, dval, setA, lookupA, setA_cons, lookupA_cons]

/-- Witness for the amended C2 at debt 100 and payments 10 then 140. -/
theorem applyPayment_accumulate_witness :
    (10 : ℚ) ≤ dval [(1, [(2, (100 : ℚ))])] 1 2 ∧
      applyPayment (applyPayment [(1, [(2, (100 : ℚ))])] ⟨1, 2, 10⟩) ⟨1, 2, 140⟩ =
        applyPayment [(1, [(2, (100 : ℚ))])] ⟨1, 2, (10 : ℚ) + 140⟩ :=
  ⟨by norm_num [dval, innerOf, lookupA, lookupA_cons],
    applyPayment_accumulate [(1, [(2, (100 : ℚ))])] 1 2 10 140
      (by norm_num [dval, innerOf, lookupA, lookupA_cons])⟩

/-! Zero-sum of the net balances (claim C4). -/

theorem compute_settlements_eq (s : Snapshot) :
    compute_settlements s =
      match stepC (stepB (stepA s.expenses).1 s.payments) s.idToName,
            renderReadable s.idToName (stepA s.expenses).2 with
      | some fs, some pe => some (fs, pe, netBalance fs)
      | _, _ => none := rfl

theorem compute_settlements_inv (s : Snapshot) (r : EngineResult)
    (h : compute_settlements s = some r) :
    stepC (stepB (stepA s.expenses).1 s.payments) s.idToName = some r.1 ∧
    renderReadable s.idToName (stepA s.expenses).2 = some r.2.1 ∧
    r.2.2 = netBalance r.1 := by
  rw [compute_settlements_eq] at h
  cases hC : stepC (stepB (stepA s.expenses).1 s.payments) s.idToName with
  | none => rw [hC] at h; exact absurd h (by simp)
  | some fs =>
    cases hR : renderReadable s.idToName (stepA s.expenses).2 with
    | none => rw [hC, hR] at h; exact absurd h (by simp)
    | some pe =>
      rw [hC, hR] at h
      obtain rfl : (fs, pe, netBalance fs) = r := Option.some_injective _ h
      exact ⟨rfl, rfl, rfl⟩

theorem sumValues_setA (l : List (String × ℚ)) (k : String) (v : ℚ) :
    sumValues (setA l k v) = sumValues l - (lookupA l k).getD 0 + v := by
  induction l with
  | nil => simp [setA, sumValues]
  | cons hd t ih =>
    obtain ⟨a, b⟩ := hd
    rw [setA_cons, lookupA_cons]
    by_cases ha : a = k
    · simp only [if_pos ha, sumValues, List.map_cons, List.sum_cons, Option.getD_some]
      ring
    · simp only [if_neg ha, sumValues, List.map_cons, List.sum_cons] at ih ⊢
      rw [ih]
      ring

theorem sumValues_netBalanceAux (fs : List Settl) (nb : List (String × ℚ)) :
    sumValues (netBalanceAux fs nb) = sumValues nb := by
  induction fs generalizing nb with
  | nil => rfl
  | cons hd rest ih =>
    obtain ⟨u, v, amt⟩ := hd
    rw [netBalanceAux, ih, sumValues_setA, sumValues_setA]
    ring

theorem sumValues_netBalance (fs : List Settl) : sumValues (netBalance fs) = 0 := by
  rw [netBalance, sumValues_netBalanceAux]
  rfl

/-- C4: for every group snapshot the engine returns on, counting each final
settlement as plus its amount to the creditor and minus its amount to the
debtor, the returned net-balance mapping sums to zero over exact
arithmetic. -/
theorem engine_net_balance_zero_sum (s : Snapshot) (r : EngineResult)
    (h : compute_settlements s = some r) : sumValues r.2.2 = 0 := by
  rw [(compute_settlements_inv s r h).2.2, sumValues_netBalance]

/-- Witness for C4 on a concrete snapshot. -/
theorem engine_net_balance_zero_sum_witness :
    sumValues ((([("B", "A", (50 : ℚ))], [("A", "B", (100 : ℚ), "e")],
      [("B", (-50 : ℚ)), ("A", (50 : ℚ))]) : EngineResult)).2.2 = 0 :=
  engine_net_balance_zero_sum
    ⟨[⟨2, "e", [(1, 100)]⟩], [⟨1, 2, 150⟩], [(1, "A"), (2, "B")]⟩
    ([("B", "A", (50 : ℚ))], [("A", "B", (100 : ℚ), "e")],
      [("B", (-50 : ℚ)), ("A", (50 : ℚ))]) (by
      norm_num [compute_settlements, stepA, stepAExpense, stepAPart, addDebt, stepB, applyPayment,
        reverseIfNeg, stepC, visits, stepCfold, renderReadable, netBalance, netBalanceAux,
        innerOf, dval, keysA, setA, lookupA, setA_cons, lookupA_cons]
      simp)

/-! Overpayment reversal (claim C1). -/

/-- C1: in a snapshot with a single expense making debtor A owe payer B an
amount d and a single payment from A to B of an amount p with p > d, Step B
leaves debt[A][B] = 0 and debt[B][A] = p - d, and the final settlements are
exactly the single entry B pays A (p - d). -/
theorem overpayment_reversal (A B : Nat) (nA nB : String) (d p : ℚ)
    (hAB : A ≠ B) (hdp : d < p) :
    dval (stepB (stepA [⟨B, "e", [(A, d)]⟩]).1 [⟨A, B, p⟩]) A B = 0 ∧
    dval (stepB (stepA [⟨B, "e", [(A, d)]⟩]).1 [⟨A, B, p⟩]) B A = p - d ∧
    (compute_settlements ⟨[⟨B, "e", [(A, d)]⟩], [⟨A, B, p⟩], [(A, nA), (B, nB)]⟩).map
      Prod.fst = some [(nB, nA, p - d)] := by
  have hBA : B ≠ A := Ne.symm hAB
  have hneg : d - p < 0 := sub_neg.mpr hdp
  have hA : stepA [⟨B, "e", [(A, d)]⟩] = ([(A, [(B, d)])], [(A, B, d, "e")]) := by
    simp [stepA, stepAExpense, stepAPart, addDebt, innerOf, setA, lookupA, hAB]
  have hB : stepB [(A, [(B, d)])] [⟨A, B, p⟩] = [(A, [(B, 0)]), (B, [(A, p - d)])] := by
    simp [stepB, applyPayment, reverseIfNeg, innerOf, dval, setA, lookupA, setA_cons,
      lookupA_cons, hAB, hBA, hneg, neg_sub]
  have h1 : ¬ (0 < 0 - (p - d)) := by linarith
  have h2 : 0 - (p - d) < 0 := by linarith
  have h1n : ¬ (0 < -(p - d)) := by linarith
  have h2n : -(p - d) < 0 := by linarith
  have h3 : ¬ p < d := not_lt.mpr (le_of_lt hdp)
  have hC : stepC [(A, [(B, 0)]), (B, [(A, p - d)])] [(A, nA), (B, nB)] =
      some [(nB, nA, p - d)] := by
    simp [stepC, visits, stepCfold, keysA, innerOf, dval, lookupA, lookupA_cons, hAB, hBA,
      h1, h2, h1n, h2n, neg_sub, hdp, h3]
  have hR : renderReadable [(A, nA), (B, nB)] [(A, B, d, "e")] = some [(nA, nB, d, "e")] := by
    simp [renderReadable, lookupA_cons, hAB, hBA]
  have hfull : compute_settlements ⟨[⟨B, "e", [(A, d)]⟩], [⟨A, B, p⟩], [(A, nA), (B, nB)]⟩ =
      some ([(nB, nA, p - d)], [(nA, nB, d, "e")], netBalance [(nB, nA, p - d)]) := by
    rw [compute_settlements_eq]
    dsimp only
    rw [hA]
    dsimp only
    rw [hB, hC, hR]
  refine ⟨?_, ?_, ?_⟩
  · rw [hA]
    dsimp only
    rw [hB]
    simp [dval, innerOf, lookupA_cons, hAB, hBA]
  · rw [hA]
    dsimp only
    rw [hB]
    simp [dval, innerOf, lookupA_cons, hAB, hBA]
  · rw [hfull]
    rfl

/-- Witness for C1 at d = 100, p = 150: the output is the single settlement
B pays A 50. -/
theorem overpayment_reversal_witness :
    dval (stepB (stepA [⟨2, "e", [(1, (100 : ℚ))]⟩]).1 [⟨1, 2, 150⟩]) 1 2 = 0 ∧
    dval (stepB (stepA [⟨2, "e", [(1, (100 : ℚ))]⟩]).1 [⟨1, 2, 150⟩]) 2 1 = 150 - 100 ∧
    (compute_settlements ⟨[⟨2, "e", [(1, (100 : ℚ))]⟩], [⟨1, 2, 150⟩],
      [(1, "A"), (2, "B")]⟩).map Prod.fst = some [("B", "A", (150 : ℚ) - 100)] :=
  overpayment_reversal 1 2 "A" "B" 100 150 (by decide) (by norm_num)

/-! Equal and Percentage splits (claims C7 and C8). -/

/-- C7: every share stored by an Equal-split expense equals the amount
divided by the participant count; in particular an expense of 90 among 3
participants (one of whom is the payer) yields shares of 30 each, and on the
resulting snapshot with no payments the final settlements are the two
non-payers each paying the payer 30. -/
theorem equal_split_shares (f : ExpenseForm) (shares : List ℚ)
    (hEq : f.split = SplitType.Equal) (h : addExpenseShares f = some shares) :
    (∀ x ∈ shares, x = f.amount / f.participants.length) ∧
    addExpenseShares ⟨"d", "P", 90, SplitType.Equal, ["P", "X", "Y"], []⟩ =
      some [30, 30, 30] ∧
    (compute_settlements ⟨[⟨1, "d", [(1, 30), (2, 30), (3, 30)]⟩], [],
      [(1, "P"), (2, "X"), (3, "Y")]⟩).map Prod.fst =
      some [("X", "P", (30 : ℚ)), ("Y", "P", 30)] := by
  refine ⟨?_, ?_, ?_⟩
  · intro x hx
    rw [addExpenseShares] at h
    split_ifs at h
    rw [hEq] at h
    simp only [Option.some.injEq] at h
    subst h
    exact List.eq_of_mem_replicate hx
  · norm_num [addExpenseShares]
    decide
  · norm_num [compute_settlements, stepA, stepAExpense, stepAPart, addDebt, stepB, applyPayment,
      reverseIfNeg, stepC, visits, stepCfold, renderReadable, netBalance, netBalanceAux,
      innerOf, dval, keysA, setA, lookupA, setA_cons, lookupA_cons]

/-- Witness for C7 on the 90-among-3 Equal-split form. -/
theorem equal_split_shares_witness :
    (∀ x ∈ ([30, 30, 30] : List ℚ),
      x = (⟨"d", "P", 90, SplitType.Equal, ["P", "X", "Y"], []⟩ : ExpenseForm).amount /
        (⟨"d", "P", 90, SplitType.Equal, ["P", "X", "Y"], []⟩ : ExpenseForm).participants.length) ∧
    addExpenseShares ⟨"d", "P", 90, SplitType.Equal, ["P", "X", "Y"], []⟩ =
      some [30, 30, 30] ∧
    (compute_settlements ⟨[⟨1, "d", [(1, 30), (2, 30), (3, 30)]⟩], [],
      [(1, "P"), (2, "X"), (3, "Y")]⟩).map Prod.fst =
      some [("X", "P", (30 : ℚ)), ("Y", "P", 30)] :=
  equal_split_shares ⟨"d", "P", 90, SplitType.Equal, ["P", "X", "Y"], []⟩ [30, 30, 30]
    rfl (by norm_num [addExpenseShares]; decide)

/-- C8: for a Percentage-split submission whose share entries are all
present, if the percentages sum to exactly 100 (and the generic gates pass)
the stored shares are amount * pct / 100 for each participant, and if the
percentages sum to anything else the submission is rejected and no rows are
stored; {50, 50} on amount 200 yields shares {100, 100}, and {60, 39} is
rejected. -/
theorem percentage_split_boundary (f : ExpenseForm) (pcts : List ℚ)
    (hP : f.split = SplitType.Percentage)
    (hm : lookupShares f.customShares f.participants = some pcts)
    (hg1 : ¬ (f.desc = "" ∨ f.payer = "" ∨ f.amount ≤ 0 ∨ f.participants = []))
    (hg2 : f.payer ∈ f.participants) (hg3 : f.participants.Nodup) :
    (pcts.sum = 100 →
      addExpenseShares f = some (pcts.map (fun x => f.amount * x / 100))) ∧
    (pcts.sum ≠ 100 → addExpenseShares f = none) ∧
    addExpenseShares ⟨"d", "P", 200, SplitType.Percentage, ["P", "X"],
      [("P", 50), ("X", 50)]⟩ = some [100, 100] ∧
    addExpenseShares ⟨"d", "P", 200, SplitType.Percentage, ["P", "X"],
      [("P", 60), ("X", 39)]⟩ = none := by
  refine ⟨?_, ?_, ?_, ?_⟩
  · intro hsum
    rw [addExpenseShares, if_neg hg1, if_neg (by simp [hg2]), if_neg (by simp [hg3]), hP]
    simp only [hm, hsum]
    simp
  · intro hsum
    rw [addExpenseShares, if_neg hg1, if_neg (by simp [hg2]), if_neg (by simp [hg3]), hP]
    simp only [hm]
    simp [hsum]
  · norm_num [addExpenseShares, lookupShares, lookupA_cons]
    decide
  · simp [addExpenseShares, lookupShares, lookupA_cons]
    norm_num

/-- Witness for C8 on the {50, 50} on 200 form. -/
theorem percentage_split_boundary_witness :
    (([(50 : ℚ), 50]).sum = 100 →
      addExpenseShares ⟨"d", "P", 200, SplitType.Percentage, ["P", "X"],
        [("P", 50), ("X", 50)]⟩ =
        some ([(50 : ℚ), 50].map
          (fun x => (⟨"d", "P", 200, SplitType.Percentage, ["P", "X"],
            [("P", 50), ("X", 50)]⟩ : ExpenseForm).amount * x / 100))) ∧
    (([(50 : ℚ), 50]).sum ≠ 100 →
      addExpenseShares ⟨"d", "P", 200, SplitType.Percentage, ["P", "X"],
        [("P", 50), ("X", 50)]⟩ = none) ∧
    addExpenseShares ⟨"d", "P", 200, SplitType.Percentage, ["P", "X"],
      [("P", 50), ("X", 50)]⟩ = some [100, 100] ∧
    addExpenseShares ⟨"d", "P", 200, SplitType.Percentage, ["P", "X"],
      [("P", 60), ("X", 39)]⟩ = none :=
  percentage_split_boundary
    ⟨"d", "P", 200, SplitType.Percentage, ["P", "X"], [("P", 50), ("X", 50)]⟩
    [50, 50] rfl (by simp [lookupShares, lookupA_cons])
    (by intro hcon
        rcases hcon with h | h | h | h
        · exact absurd h (by decide)
        · exact absurd h (by decide)
        · exact absurd h (by norm_num)
        · exact absurd h (by decide))
    (by decide) (by decide)

/-! Net balance structure (claim C6). -/

@[simp] theorem namesOf_nil : namesOf [] = [] := rfl

@[simp] theorem namesOf_cons (e : Settl) (rest : List Settl) :
    namesOf (e :: rest) = e.1 :: e.2.1 :: namesOf rest := rfl

@[simp] theorem balanceOf_nil (n : String) : balanceOf n [] = 0 := rfl

@[simp] theorem balanceOf_cons (n : String) (e : Settl) (rest : List Settl) :
    balanceOf n (e :: rest) =
      ((if e.2.1 = n then e.2.2 else 0) - (if e.1 = n then e.2.2 else 0)) +
        balanceOf n rest := by
  simp [balanceOf]

theorem balanceOf_not_mem (n : String) (fs : List Settl) (h : n ∉ namesOf fs) :
    balanceOf n fs = 0 := by
  induction fs with
  | nil => rfl
  | cons e rest ih =>
    simp only [namesOf_cons, List.mem_cons] at h
    push_neg at h
    rw [balanceOf_cons, ih h.2.2, if_neg (Ne.symm h.2.1), if_neg (Ne.symm h.1)]
    ring

theorem lookupA_netBalance_step (nb : List (String × ℚ)) (u v : String) (a : ℚ) (n : String) :
    lookupA (setA (setA nb u ((lookupA nb u).getD 0 - a)) v
      ((lookupA (setA nb u ((lookupA nb u).getD 0 - a)) v).getD 0 + a)) n =
    if n = u ∨ n = v then
      some ((lookupA nb n).getD 0 + ((if v = n then a else 0) - (if u = n then a else 0)))
    else lookupA nb n := by
  by_cases hv : n = v
  · subst hv
    rw [lookupA_setA_self, if_pos (Or.inr rfl), if_pos rfl]
    by_cases hu : n = u
    · subst hu
      rw [lookupA_setA_self, if_pos rfl]
      simp only [Option.getD_some]
      congr 1
      ring
    · rw [lookupA_setA_ne _ _ _ _ hu, if_neg (Ne.symm hu)]
      congr 1
      ring
  · rw [lookupA_setA_ne _ _ _ _ hv, if_neg (Ne.symm hv)]
    by_cases hu : n = u
    · subst hu
      rw [lookupA_setA_self, if_pos (Or.inl rfl), if_pos rfl]
      congr 1
      ring
    · rw [lookupA_setA_ne _ _ _ _ hu]
      have hor : ¬ (n = u ∨ n = v) := by
        push_neg
        exact ⟨hu, hv⟩
      rw [if_neg hor]

theorem lookupA_netBalanceAux (fs : List Settl) (nb : List (String × ℚ)) (n : String) :
    lookupA (netBalanceAux fs nb) n =
      if n ∈ namesOf fs then some ((lookupA nb n).getD 0 + balanceOf n fs)
      else lookupA nb n := by
  induction fs generalizing nb with
  | nil => simp [netBalanceAux]
  | cons e rest ih =>
    obtain ⟨u, v, a⟩ := e
    rw [netBalanceAux, ih, lookupA_netBalance_step]
    by_cases huv : n = u ∨ n = v
    · have hmem : n ∈ namesOf ((u, v, a) :: rest) := by
        rcases huv with h | h <;> simp [namesOf_cons, h]
      rw [if_pos huv, if_pos hmem, Option.getD_some]
      by_cases hm : n ∈ namesOf rest
      · rw [if_pos hm, balanceOf_cons]
        congr 1
        ring
      · rw [if_neg hm, balanceOf_cons, balanceOf_not_mem n rest hm]
        congr 1
        ring
    · rw [if_neg huv]
      push_neg at huv
      by_cases hm : n ∈ namesOf rest
      · have hmem : n ∈ namesOf ((u, v, a) :: rest) := by simp [namesOf_cons, hm]
        rw [if_pos hm, if_pos hmem, balanceOf_cons,
          if_neg (Ne.symm huv.2), if_neg (Ne.symm huv.1)]
        congr 1
        ring
      · have hmem : n ∉ namesOf ((u, v, a) :: rest) := by
          simp [namesOf_cons, hm, huv.1, huv.2]
        rw [if_neg hm, if_neg hmem]

/-- C6: the returned net-balance mapping is computed solely from the final
settlements: looking up a name gives the sum of plus amount where the name
is creditor and minus amount where it is debtor, when the name appears in
some final settlement, and no entry at all (not a zero entry) otherwise. -/
theorem net_balance_structure (s : Snapshot) (r : EngineResult) (n : String)
    (h : compute_settlements s = some r) :
    lookupA r.2.2 n = if n ∈ namesOf r.1 then some (balanceOf n r.1) else none := by
  rw [(compute_settlements_inv s r h).2.2, netBalance, lookupA_netBalanceAux]
  simp

/-- Witness for C6 on a fully-cancelling snapshot: the settled participant
has no balance entry at all. -/
theorem net_balance_structure_witness :
    lookupA ((([] : List Settl), [("A", "B", (40 : ℚ), "e1"), ("B", "A", (40 : ℚ), "e2")],
      ([] : List (String × ℚ))) : EngineResult).2.2 "A" =
      if "A" ∈ namesOf ([] : List Settl) then some (balanceOf "A" ([] : List Settl))
      else none :=
  net_balance_structure
    ⟨[⟨2, "e1", [(1, 40)]⟩, ⟨1, "e2", [(2, 40)]⟩], [], [(1, "A"), (2, "B")]⟩
    (([] : List Settl), [("A", "B", (40 : ℚ), "e1"), ("B", "A", (40 : ℚ), "e2")],
      ([] : List (String × ℚ))) "A"
    (by norm_num [compute_settlements, stepA, stepAExpense, stepAPart, addDebt, stepB, stepC, visits,
      stepCfold, renderReadable, netBalance, netBalanceAux, innerOf, dval, keysA, setA,
      lookupA, setA_cons, lookupA_cons])

/-! No self-settlements (claim C10). -/

theorem namesInj_lookup (names : List (Nat × String)) (hinj : NamesInj names)
    {a b : Nat} {x : String} (ha : lookupA names a = some x)
    (hb : lookupA names b = some x) : a = b := by
  have hma := lookupA_mem ha
  have hmb := lookupA_mem hb
  have := List.inj_on_of_nodup_map hinj hma hmb rfl
  exact congrArg Prod.fst this

theorem stepCfold_no_self (debts : Debts) (names : List (Nat × String))
    (hinj : NamesInj names) (vs : List (Nat × Nat)) :
    ∀ (processed : List (Nat × Nat)) (acc out : List Settl)
      (procOut : List (Nat × Nat)),
      stepCfold debts names vs processed acc = some (out, procOut) →
      (∀ e ∈ acc, e.1 ≠ e.2.1) → ∀ e ∈ out, e.1 ≠ e.2.1 := by
  induction vs with
  | nil =>
    intro processed acc out procOut h hacc
    rw [stepCfold] at h
    simp only [Option.some.injEq, Prod.mk.injEq] at h
    obtain ⟨rfl, rfl⟩ := h
    exact hacc
  | cons p rest ih =>
    obtain ⟨u, v⟩ := p
    intro processed acc out procOut h hacc
    rw [stepCfold] at h
    by_cases hmem : (v, u) ∈ processed
    · rw [if_pos hmem] at h
      exact ih _ _ _ _ h hacc
    · rw [if_neg hmem] at h
      by_cases h1 : 0 < dval debts u v - dval debts v u
      · rw [if_pos h1] at h
        cases hu : lookupA names u with
        | none =>
          rw [hu] at h
          cases hv' : lookupA names v <;> rw [hv'] at h <;> simp at h
        | some nu =>
          cases hv' : lookupA names v with
          | none => rw [hu, hv'] at h; simp at h
          | some nv =>
            rw [hu, hv'] at h
            refine ih _ _ _ _ h ?_
            intro e he
            rcases List.mem_append.1 he with he | he
            · exact hacc e he
            · obtain rfl : e = (nu, nv, dval debts u v - dval debts v u) := by
                simpa using he
              intro hnn
              simp only [Prod.mk.injEq] at hnn
              have huv : u = v := namesInj_lookup names hinj hu (by rw [hv', hnn])
              rw [huv] at h1
              simp at h1
      · rw [if_neg h1] at h
        by_cases h2 : dval debts u v - dval debts v u < 0
        · rw [if_pos h2] at h
          cases hv' : lookupA names v with
          | none =>
            rw [hv'] at h
            cases hu : lookupA names u <;> rw [hu] at h <;> simp at h
          | some nv =>
            cases hu : lookupA names u with
            | none => rw [hv', hu] at h; simp at h
            | some nu =>
              rw [hv', hu] at h
              refine ih _ _ _ _ h ?_
              intro e he
              rcases List.mem_append.1 he with he | he
              · exact hacc e he
              · obtain rfl : e = (nv, nu, -(dval debts u v - dval debts v u)) := by
                  simpa using he
                intro hnn
                simp only [Prod.mk.injEq] at hnn
                have huv : v = u := namesInj_lookup names hinj hv' (by rw [hu, hnn])
                rw [huv] at h2
                simp at h2
        · rw [if_neg h2] at h
          exact ih _ _ _ _ h hacc

/-- C10: every settlement emitted by the engine has distinct payer and payee
names, for any snapshot whose display names are pairwise distinct (the users
table enforces UNIQUE names): expenses never create a self-debt, and a
self-payment nets its diagonal cell to a zero that Step C never emits. -/
theorem no_self_settlement (s : Snapshot) (r : EngineResult) (e : Settl)
    (hinj : NamesInj s.idToName) (h : compute_settlements s = some r)
    (he : e ∈ r.1) : e.1 ≠ e.2.1 := by
  have hC := (compute_settlements_inv s r h).1
  rw [stepC] at hC
  cases hf : stepCfold (stepB (stepA s.expenses).1 s.payments) s.idToName
      (visits (stepB (stepA s.expenses).1 s.payments)) [] [] with
  | none => rw [hf] at hC; simp at hC
  | some pr =>
    rw [hf] at hC
    simp only [Option.map_some', Option.some.injEq] at hC
    obtain ⟨out, procOut⟩ := pr
    refine stepCfold_no_self _ _ hinj _ _ _ out procOut hf ?_ e ?_
    · intro e' he'
      exact absurd he' (List.not_mem_nil e')
    · rw [show out = r.1 from hC]
      exact he

/-- Witness for C10 on a snapshot containing a self-payment. -/
theorem no_self_settlement_witness :
    (("A", "B", (100 : ℚ)) : Settl).1 ≠ (("A", "B", (100 : ℚ)) : Settl).2.1 := by
  have hcomp : compute_settlements
      ⟨[⟨2, "e", [(1, 100)]⟩], [⟨1, 1, 50⟩], [(1, "A"), (2, "B")]⟩ =
      some ([("A", "B", (100 : ℚ))], [("A", "B", (100 : ℚ), "e")],
        [("A", (-100 : ℚ)), ("B", (100 : ℚ))]) := by
    norm_num [compute_settlements, stepA, stepAExpense, stepAPart, addDebt, stepB,
      applyPayment, reverseIfNeg, stepC, visits, stepCfold, renderReadable, netBalance,
      netBalanceAux, innerOf, dval, keysA, setA, lookupA, setA_cons, lookupA_cons,
      -Prod.mk_one_one, -Prod.mk_eq_one]
    simp
  exact no_self_settlement ⟨[⟨2, "e", [(1, 100)]⟩], [⟨1, 1, 50⟩], [(1, "A"), (2, "B")]⟩
    ([("A", "B", (100 : ℚ))], [("A", "B", (100 : ℚ), "e")],
      [("A", (-100 : ℚ)), ("B", (100 : ℚ))])
    ("A", "B", (100 : ℚ)) (by decide) hcomp (by simp)

/-! Totality of the engine (claim C9). -/

theorem mem_setA {α β : Type} [DecidableEq α] (l : List (α × β)) (k : α) (v : β)
    (e : α × β) (he : e ∈ setA l k v) : e ∈ l ∨ e = (k, v) := by
  induction l with
  | nil => simpa [setA] using he
  | cons hd t ih =>
    obtain ⟨x, y⟩ := hd
    rw [setA_cons] at he
    by_cases hx : x = k
    · rw [if_pos hx] at he
      rcases List.mem_cons.1 he with h | h

      · right; rw [h, hx]
      · left; exact List.mem_cons_of_mem _ h
    · rw [if_neg hx] at he
      rcases List.mem_cons.1 he with h | h
      · left
        rw [h]
        exact List.mem_cons_self _ _
      · rcases ih h with h' | h'
        · left; exact List.mem_cons_of_mem _ h'
        · right; exact h'

theorem keysA_innerOf_subset (d : Debts) (u i : Nat)
    (hi : i ∈ keysA (innerOf d u)) : i ∈ allIds d := by
  unfold innerOf at hi
  cases hl : lookupA d u with
  | none => rw [hl] at hi; simp at hi
  | some inn =>
    rw [hl] at hi
    have hm : (u, inn) ∈ d := lookupA_mem hl
    unfold allIds
    exact List.mem_append.2 (Or.inr (List.mem_flatMap.2 ⟨(u, inn), hm, hi⟩))

theorem keysA_setA_cases {α β : Type} [DecidableEq α] (l : List (α × β)) (k a : α) (v : β)
    (ha : a ∈ keysA (setA l k v)) : a ∈ keysA l ∨ a = k := by
  by_cases hk : k ∈ keysA l
  · rw [keysA_setA_mem _ _ _ hk] at ha
    exact Or.inl ha
  · rw [keysA_setA_not_mem _ _ _ hk] at ha
    rcases List.mem_append.1 ha with h | h
    · exact Or.inl h
    · right; simpa using h

theorem mem_allIds_setA (d : Debts) (k : Nat) (x : Inner) (i : Nat)
    (hi : i ∈ allIds (setA d k x)) : i ∈ allIds d ∨ i = k ∨ i ∈ keysA x := by
  unfold allIds at hi
  rcases List.mem_append.1 hi with hi | hi
  · rcases keysA_setA_cases _ _ _ _ hi with h | h
    · left
      unfold allIds
      exact List.mem_append.2 (Or.inl h)
    · exact Or.inr (Or.inl h)
  · obtain ⟨kv, hkv, hik⟩ := List.mem_flatMap.1 hi
    rcases mem_setA _ _ _ _ hkv with h | h
    · left
      unfold allIds
      exact List.mem_append.2 (Or.inr (List.mem_flatMap.2 ⟨kv, h, hik⟩))
    · subst h
      exact Or.inr (Or.inr hik)

theorem mem_allIds_setPair (d : Debts) (a b : Nat) (val : ℚ) (i : Nat)
    (hi : i ∈ allIds (setA d a (setA (innerOf d a) b val))) :
    i ∈ allIds d ∨ i = a ∨ i = b := by
  rcases mem_allIds_setA _ _ _ _ hi with h | h | h
  · exact Or.inl h
  · exact Or.inr (Or.inl h)
  · rcases keysA_setA_cases _ _ _ _ h with h' | h'
    · exact Or.inl (keysA_innerOf_subset d a i h')
    · exact Or.inr (Or.inr h')

theorem mem_allIds_addDebt (d : Debts) (a b : Nat) (s : ℚ) (i : Nat)
    (hi : i ∈ allIds (addDebt d a b s)) : i ∈ allIds d ∨ i = a ∨ i = b := by
  rw [addDebt] at hi
  exact mem_allIds_setPair _ _ _ _ _ hi

theorem mem_allIds_applyPayment (d : Debts) (pay : Payment) (i : Nat)
    (hi : i ∈ allIds (applyPayment d pay)) :
    i ∈ allIds d ∨ i = pay.payerId ∨ i = pay.payeeId := by
  simp only [applyPayment, reverseIfNeg] at hi
  split at hi
  · rcases mem_allIds_setPair _ _ _ _ _ hi with h | h | h
    · rcases mem_allIds_setPair _ _ _ _ _ h with h' | h' | h'
      · rcases mem_allIds_setPair _ _ _ _ _ h' with h2 | h2 | h2
        · exact Or.inl h2
        · exact Or.inr (Or.inl h2)
        · exact Or.inr (Or.inr h2)
      · exact Or.inr (Or.inr h')
      · exact Or.inr (Or.inl h')
    · exact Or.inr (Or.inl h)
    · exact Or.inr (Or.inr h)
  · rcases mem_allIds_setPair _ _ _ _ _ hi with h | h | h
    · exact Or.inl h
    · exact Or.inr (Or.inl h)
    · exact Or.inr (Or.inr h)

theorem partFold_ids (pid : Nat) (dsc : String) (ps : List (Nat × ℚ)) :
    ∀ st : StepAState,
      (∀ i ∈ allIds (ps.foldl (stepAPart pid dsc) st).1,
        i ∈ allIds st.1 ∨ i = pid ∨ i ∈ ps.map Prod.fst) ∧
      (∀ r ∈ (ps.foldl (stepAPart pid dsc) st).2,
        r ∈ st.2 ∨ (r.1 ∈ ps.map Prod.fst ∧ r.2.1 = pid)) := by
  induction ps with
  | nil =>
    intro st
    exact ⟨fun i hi => Or.inl hi, fun r hr => Or.inl hr⟩
  | cons pr rest ih =>
    intro st
    rw [List.foldl_cons]
    constructor
    · intro i hi
      rcases (ih (stepAPart pid dsc st pr)).1 i hi with h | h | h
      · rw [stepAPart] at h
        by_cases hne : pr.1 ≠ pid
        · rw [if_pos hne] at h
          rcases mem_allIds_addDebt _ _ _ _ _ h with h' | h' | h'
          · exact Or.inl h'
          · exact Or.inr (Or.inr (by simp [h']))
          · exact Or.inr (Or.inl h')
        · rw [if_neg hne] at h
          exact Or.inl h
      · exact Or.inr (Or.inl h)
      · exact Or.inr (Or.inr (List.mem_cons_of_mem _ h))
    · intro r hr
      rcases (ih (stepAPart pid dsc st pr)).2 r hr with h | h
      · rw [stepAPart] at h
        by_cases hne : pr.1 ≠ pid
        · rw [if_pos hne] at h
          rcases List.mem_append.1 h with h' | h'
          · exact Or.inl h'
          · right
            obtain rfl : r = (pr.1, pid, pr.2, dsc) := by simpa using h'
            exact ⟨by simp, rfl⟩
        · rw [if_neg hne] at h
          exact Or.inl h
      · exact Or.inr ⟨List.mem_cons_of_mem _ h.1, h.2⟩

theorem expFold_ids (es : List Expense) :
    ∀ st : StepAState,
      (∀ i ∈ allIds (es.foldl stepAExpense st).1,
        i ∈ allIds st.1 ∨ i ∈ es.flatMap expenseIds) ∧
      (∀ r ∈ (es.foldl stepAExpense st).2,
        r ∈ st.2 ∨ (r.1 ∈ es.flatMap expenseIds ∧ r.2.1 ∈ es.flatMap expenseIds)) := by
  induction es with
  | nil =>
    intro st
    exact ⟨fun i hi => Or.inl hi, fun r hr => Or.inl hr⟩
  | cons e rest ih =>
    intro st
    rw [List.foldl_cons]
    have hexp : ∀ j, j = e.payerId ∨ j ∈ e.participants.map Prod.fst → j ∈ expenseIds e := by
      intro j hj
      rcases hj with h | h
      · rw [expenseIds, h]
        exact List.mem_cons_self _ _
      · exact List.mem_cons_of_mem _ h
    constructor
    · intro i hi
      rcases (ih (stepAExpense st e)).1 i hi with h | h
      · rw [stepAExpense] at h
        rcases (partFold_ids e.payerId e.desc e.participants st).1 i h with h' | h' | h'
        · exact Or.inl h'
        · exact Or.inr (List.mem_flatMap.2 ⟨e, List.mem_cons_self _ _, hexp i (Or.inl h')⟩)
        · exact Or.inr (List.mem_flatMap.2 ⟨e, List.mem_cons_self _ _, hexp i (Or.inr h')⟩)
      · right
        obtain ⟨e', he', hie⟩ := List.mem_flatMap.1 h
        exact List.mem_flatMap.2 ⟨e', List.mem_cons_of_mem _ he', hie⟩
    · intro r hr
      rcases (ih (stepAExpense st e)).2 r hr with h | h
      · rw [stepAExpense] at h
        rcases (partFold_ids e.payerId e.desc e.participants st).2 r h with h' | h'
        · exact Or.inl h'
        · right
          constructor
          · exact List.mem_flatMap.2 ⟨e, List.mem_cons_self _ _, hexp r.1 (Or.inr h'.1)⟩
          · exact List.mem_flatMap.2 ⟨e, List.mem_cons_self _ _, hexp r.2.1 (Or.inl h'.2)⟩
      · right
        obtain ⟨h1, h2⟩ := h
        obtain ⟨e1, he1, h1'⟩ := List.mem_flatMap.1 h1
        obtain ⟨e2, he2, h2'⟩ := List.mem_flatMap.1 h2
        exact ⟨List.mem_flatMap.2 ⟨e1, List.mem_cons_of_mem _ he1, h1'⟩,
          List.mem_flatMap.2 ⟨e2, List.mem_cons_of_mem _ he2, h2'⟩⟩

theorem stepA_ids (es : List Expense) :
    (∀ i ∈ allIds (stepA es).1, i ∈ es.flatMap expenseIds) ∧
    (∀ r ∈ (stepA es).2,
      r.1 ∈ es.flatMap expenseIds ∧ r.2.1 ∈ es.flatMap expenseIds) := by
  rw [stepA]
  constructor
  · intro i hi
    rcases (expFold_ids es ([], [])).1 i hi with h | h
    · simp [allIds, keysA] at h
    · exact h
  · intro r hr
    rcases (expFold_ids es ([], [])).2 r hr with h | h
    · simp at h
    · exact h

theorem stepB_ids (ps : List Payment) :
    ∀ (d : Debts) (i : Nat), i ∈ allIds (stepB d ps) →
      i ∈ allIds d ∨ i ∈ ps.flatMap (fun p => [p.payerId, p.payeeId]) := by
  induction ps with
  | nil => intro d i hi; exact Or.inl hi
  | cons p rest ih =>
    intro d i hi
    rw [stepB, List.foldl_cons] at hi
    rcases ih (applyPayment d p) i hi with h | h
    · rcases mem_allIds_applyPayment _ _ _ h with h' | h' | h'
      · exact Or.inl h'
      · exact Or.inr (by simp [h'])
      · exact Or.inr (by simp [h'])
    · right
      obtain ⟨q, hq, hiq⟩ := List.mem_flatMap.1 h
      exact List.mem_flatMap.2 ⟨q, List.mem_cons_of_mem _ hq, hiq⟩

theorem visits_mem_ids (debts : Debts) (p : Nat × Nat) (hp : p ∈ visits debts) :
    p.1 ∈ allIds debts ∧ p.2 ∈ allIds debts := by
  unfold visits at hp
  obtain ⟨u, hu, hp2⟩ := List.mem_flatMap.1 hp
  obtain ⟨v, hv, rfl⟩ := List.mem_map.1 hp2
  constructor
  · unfold allIds
    exact List.mem_append.2 (Or.inl hu)
  · exact keysA_innerOf_subset debts u v hv

theorem stepCfold_isSome (debts : Debts) (names : List (Nat × String))
    (vs : List (Nat × Nat)) :
    ∀ (processed : List (Nat × Nat)) (acc : List Settl),
      (∀ p ∈ vs, (lookupA names p.1).isSome ∧ (lookupA names p.2).isSome) →
      (stepCfold debts names vs processed acc).isSome := by
  induction vs with
  | nil =>
    intro processed acc _
    rw [stepCfold]
    simp
  | cons p rest ih =>
    obtain ⟨u, v⟩ := p
    intro processed acc h
    have hu := (h (u, v) (List.mem_cons_self _ _)).1
    have hv := (h (u, v) (List.mem_cons_self _ _)).2
    have hrest : ∀ p ∈ rest, (lookupA names p.1).isSome ∧ (lookupA names p.2).isSome :=
      fun p hp => h p (List.mem_cons_of_mem _ hp)
    rw [stepCfold]
    obtain ⟨nu, hnu⟩ := Option.isSome_iff_exists.1 hu
    obtain ⟨nv, hnv⟩ := Option.isSome_iff_exists.1 hv
    by_cases hmem : (v, u) ∈ processed
    · rw [if_pos hmem]
      exact ih _ _ hrest
    · rw [if_neg hmem]
      by_cases h1 : 0 < dval debts u v - dval debts v u
      · rw [if_pos h1, hnu, hnv]
        exact ih _ _ hrest
      · rw [if_neg h1]
        by_cases h2 : dval debts u v - dval debts v u < 0
        · rw [if_pos h2, hnv, hnu]
          exact ih _ _ hrest
        · rw [if_neg h2]
          exact ih _ _ hrest

theorem renderReadable_isSome (names : List (Nat × String))
    (rows : List (Nat × Nat × ℚ × String))
    (h : ∀ r ∈ rows, (lookupA names r.1).isSome ∧ (lookupA names r.2.1).isSome) :
    (renderReadable names rows).isSome := by
  induction rows with
  | nil => rw [renderReadable]; simp
  | cons r rest ih =>
    obtain ⟨u, payer, sh, dsc⟩ := r
    rw [renderReadable]
    obtain ⟨nu, hnu⟩ :=
      Option.isSome_iff_exists.1 (h (u, payer, sh, dsc) (List.mem_cons_self _ _)).1
    obtain ⟨np, hnp⟩ :=
      Option.isSome_iff_exists.1 (h (u, payer, sh, dsc) (List.mem_cons_self _ _)).2
    obtain ⟨rr, hrr⟩ :=
      Option.isSome_iff_exists.1 (ih (fun r hr => h r (List.mem_cons_of_mem _ hr)))
    rw [hnu, hnp, hrr]
    simp

/-- C9: on every snapshot in which each referenced user id has a display
name, the engine returns a result (no uncaught error), even when upstream
invariants are violated: non-positive amounts, a payer outside the
participant set, zero-amount or self payments, negative shares. -/
theorem engine_total (s : Snapshot)
    (h : ∀ i ∈ snapshotIds s, (lookupA s.idToName i).isSome) :
    (compute_settlements s).isSome := by
  have hA := stepA_ids s.expenses
  have hdebts : ∀ i ∈ allIds (stepB (stepA s.expenses).1 s.payments),
      (lookupA s.idToName i).isSome := by
    intro i hi
    rcases stepB_ids s.payments _ i hi with h' | h'
    · refine h i ?_
      unfold snapshotIds
      exact List.mem_append.2 (Or.inl (hA.1 i h'))
    · refine h i ?_
      unfold snapshotIds
      exact List.mem_append.2 (Or.inr h')
  have hCsome : (stepC (stepB (stepA s.expenses).1 s.payments) s.idToName).isSome := by
    rw [stepC]
    have hfold := stepCfold_isSome (stepB (stepA s.expenses).1 s.payments) s.idToName
      (visits (stepB (stepA s.expenses).1 s.payments)) [] []
      (fun p hp => ⟨hdebts _ (visits_mem_ids _ p hp).1, hdebts _ (visits_mem_ids _ p hp).2⟩)
    obtain ⟨x, hx⟩ := Option.isSome_iff_exists.1 hfold
    rw [hx]
    simp
  have hRsome : (renderReadable s.idToName (stepA s.expenses).2).isSome := by
    refine renderReadable_isSome _ _ ?_
    intro r hr
    have hre := hA.2 r hr
    constructor
    · exact h r.1 (by unfold snapshotIds; exact List.mem_append.2 (Or.inl hre.1))
    · exact h r.2.1 (by unfold snapshotIds; exact List.mem_append.2 (Or.inl hre.2))
  rw [compute_settlements_eq]
  obtain ⟨fs, hfs⟩ := Option.isSome_iff_exists.1 hCsome
  obtain ⟨pe, hpe⟩ := Option.isSome_iff_exists.1 hRsome
  rw [hfs, hpe]
  simp

/-- Witness for C9 on a snapshot violating several upstream invariants: a
negative share, a payer outside the participant set, a self-payment, a
zero-amount payment and a negative payment amount. -/
theorem engine_total_witness :
    (compute_settlements ⟨[⟨1, "e", [(2, -5), (3, 4)]⟩],
      [⟨2, 2, 7⟩, ⟨1, 2, 0⟩, ⟨2, 1, -4⟩],
      [(1, "A"), (2, "B"), (3, "C")]⟩).isSome :=
  engine_total _ (by decide)

/-! Pairwise netting emits at most one entry per pair (claim C3). -/

@[simp] theorem pairEntriesFor_nil (nu nv : String) : pairEntriesFor nu nv [] = [] := rfl

theorem pairEntriesFor_append (nu nv : String) (l1 l2 : List Settl) :
    pairEntriesFor nu nv (l1 ++ l2) = pairEntriesFor nu nv l1 ++ pairEntriesFor nu nv l2 := by
  simp [pairEntriesFor, List.filter_append]

theorem visits_nodup (d : Debts) (hout : (keysA d).Nodup)
    (hinn : ∀ kv ∈ d, (keysA kv.2).Nodup) : (visits d).Nodup := by
  rw [visits, List.nodup_flatMap]
  constructor
  · intro x hx
    refine List.Nodup.map (fun a b hab => ?_) ?_
    · exact congrArg Prod.snd hab
    · unfold innerOf
      cases hl : lookupA d x with
      | none => simp
      | some inn => exact hinn (x, inn) (lookupA_mem hl)
  · refine hout.imp ?_
    intro a b hab
    intro p hpa hpb
    obtain ⟨va, _, rfl⟩ := List.mem_map.1 hpa
    obtain ⟨vb, _, hvb⟩ := List.mem_map.1 hpb
    exact hab (congrArg Prod.fst hvb).symm

theorem mem_visits_of_dval_ne (d : Debts) (u v : Nat) (h : dval d u v ≠ 0) :
    (u, v) ∈ visits d := by
  unfold dval at h
  cases hl : lookupA d u with
  | none =>
    exfalso
    apply h
    unfold innerOf
    rw [hl]
    rfl
  | some inn =>
    cases hl2 : lookupA (innerOf d u) v with
    | none =>
      exfalso
      apply h
      rw [hl2]
      rfl
    | some x =>
      have hu : u ∈ keysA d := (lookupA_isSome_iff d u).1 (by rw [hl]; rfl)
      have hv : v ∈ keysA (innerOf d u) :=
        (lookupA_isSome_iff (innerOf d u) v).1 (by rw [hl2]; rfl)
      unfold visits
      exact List.mem_flatMap.2 ⟨u, hu, List.mem_map.2 ⟨v, hv, rfl⟩⟩

/-- Master lemma for C3: along the Step C fold, the entries concerning one
unordered pair of users accumulate to at most one normalized settlement,
emitted at the pair's first unblocked visit. -/
theorem stepCfold_pair (debts : Debts) (names : List (Nat × String))
    (hinj : NamesInj names) (u v : Nat) (huv : u ≠ v) (nu nv : String)
    (hu : lookupA names u = some nu) (hv : lookupA names v = some nv)
    (vs : List (Nat × Nat)) :
    ∀ (processed : List (Nat × Nat)) (acc out : List Settl) (procOut : List (Nat × Nat)),
      stepCfold debts names vs processed acc = some (out, procOut) →
      vs.Nodup →
      ((u, v) ∈ processed → (u, v) ∉ vs) →
      ((v, u) ∈ processed → (v, u) ∉ vs) →
      pairEntriesFor nu nv out =
        pairEntriesFor nu nv acc ++
          (if (u, v) ∈ processed ∨ (v, u) ∈ processed then []
           else if ((u, v) ∈ vs ∨ (v, u) ∈ vs) ∧ dval debts u v - dval debts v u ≠ 0 then
             if 0 < dval debts u v - dval debts v u then
               [(nu, nv, dval debts u v - dval debts v u)]
             else [(nv, nu, -(dval debts u v - dval debts v u))]
           else []) := by
  induction vs with
  | nil =>
    intro processed acc out procOut h _ _ _
    rw [stepCfold] at h
    simp only [Option.some.injEq, Prod.mk.injEq] at h
    obtain ⟨rfl, -⟩ := h
    simp
  | cons xy rest ih =>
    obtain ⟨x, y⟩ := xy
    intro processed acc out procOut h hnd hp1 hp2
    have hndr : rest.Nodup := hnd.of_cons
    have hhead : (x, y) ∉ rest := (List.nodup_cons.1 hnd).1
    rw [stepCfold] at h
    by_cases hskip : (y, x) ∈ processed
    · -- the visit is skipped
      rw [if_pos hskip] at h
      have hih := ih processed acc out procOut h hndr
        (fun hm => fun hr => hp1 hm (List.mem_cons_of_mem _ hr))
        (fun hm => fun hr => hp2 hm (List.mem_cons_of_mem _ hr))
      rw [hih]
      congr 1
      by_cases hP : (u, v) ∈ processed ∨ (v, u) ∈ processed
      · rw [if_pos hP, if_pos hP]
      · rw [if_neg hP, if_neg hP]
        have hxyuv : (x, y) ≠ (u, v) := by
          intro he
          apply hP
          right
          have hx : x = u := congrArg Prod.fst he
          have hy : y = v := congrArg Prod.snd he
          rw [← hx, ← hy]
          exact hskip
        have hxyvu : (x, y) ≠ (v, u) := by
          intro he
          apply hP
          left
          have hx : x = v := congrArg Prod.fst he
          have hy : y = u := congrArg Prod.snd he
          rw [← hy, ← hx]
          exact hskip
        have hmemiff : ((u, v) ∈ (x, y) :: rest ∨ (v, u) ∈ (x, y) :: rest) ↔
            ((u, v) ∈ rest ∨ (v, u) ∈ rest) := by
          constructor
          · rintro (hm | hm)
            · rcases List.mem_cons.1 hm with hm | hm
              · exact absurd hm.symm hxyuv
              · exact Or.inl hm
            · rcases List.mem_cons.1 hm with hm | hm
              · exact absurd hm.symm hxyvu
              · exact Or.inr hm
          · rintro (hm | hm)
            · exact Or.inl (List.mem_cons_of_mem _ hm)
            · exact Or.inr (List.mem_cons_of_mem _ hm)
        by_cases hmem : (u, v) ∈ rest ∨ (v, u) ∈ rest
        · by_cases hne : dval debts u v - dval debts v u ≠ 0
          · have hcR : ((u, v) ∈ rest ∨ (v, u) ∈ rest) ∧
                dval debts u v - dval debts v u ≠ 0 := ⟨hmem, hne⟩
            have hcC : ((u, v) ∈ (x, y) :: rest ∨ (v, u) ∈ (x, y) :: rest) ∧
                dval debts u v - dval debts v u ≠ 0 := ⟨hmemiff.2 hmem, hne⟩
            rw [if_pos hcR, if_pos hcC]
          · have hcR : ¬ (((u, v) ∈ rest ∨ (v, u) ∈ rest) ∧
                dval debts u v - dval debts v u ≠ 0) := fun hc => hne hc.2
            have hcC : ¬ (((u, v) ∈ (x, y) :: rest ∨ (v, u) ∈ (x, y) :: rest) ∧
                dval debts u v - dval debts v u ≠ 0) := fun hc => hne hc.2
            rw [if_neg hcR, if_neg hcC]
        · have hcR : ¬ (((u, v) ∈ rest ∨ (v, u) ∈ rest) ∧
              dval debts u v - dval debts v u ≠ 0) := fun hc => hmem hc.1
          have hcC : ¬ (((u, v) ∈ (x, y) :: rest ∨ (v, u) ∈ (x, y) :: rest) ∧
              dval debts u v - dval debts v u ≠ 0) := fun hc => hmem (hmemiff.1 hc.1)
          rw [if_neg hcR, if_neg hcC]
    · -- the visit is processed
      rw [if_neg hskip] at h
      by_cases hxyuv : (x, y) = (u, v)
      · -- first orientation of our pair
        have hx : u = x := (congrArg Prod.fst hxyuv).symm
        have hy : v = y := (congrArg Prod.snd hxyuv).symm
        subst hx
        subst hy
        have hpuv : (u, v) ∉ processed := fun hm => hp1 hm (List.mem_cons_self _ _)
        have hpvu : (v, u) ∉ processed := hskip
        have hP : ¬ ((u, v) ∈ processed ∨ (v, u) ∈ processed) := by
          rintro (hm | hm)
          · exact hpuv hm
          · exact hpvu hm
        rw [if_neg hP]
        have hp1' : (u, v) ∈ (u, v) :: processed → (u, v) ∉ rest :=
          fun _ => hhead
        have hp2' : (v, u) ∈ (u, v) :: processed → (v, u) ∉ rest := by
          intro hm
          rcases List.mem_cons.1 hm with hm | hm
          · exact absurd (congrArg Prod.fst hm) (Ne.symm huv)
          · exact fun hr => hp2 hm (List.mem_cons_of_mem _ hr)
        by_cases h1 : 0 < dval debts u v - dval debts v u
        · rw [if_pos h1, hu, hv] at h
          have hih := ih ((u, v) :: processed)
            (acc ++ [(nu, nv, dval debts u v - dval debts v u)]) out procOut h hndr hp1' hp2'
          have hP1 : (u, v) ∈ (u, v) :: processed ∨ (v, u) ∈ (u, v) :: processed :=
            Or.inl (List.mem_cons_self _ _)
          have hcC : ((u, v) ∈ (u, v) :: rest ∨ (v, u) ∈ (u, v) :: rest) ∧
              dval debts u v - dval debts v u ≠ 0 :=
            ⟨Or.inl (List.mem_cons_self _ _), ne_of_gt h1⟩
          rw [hih, if_pos hP1, pairEntriesFor_append]
          rw [if_pos hcC, if_pos h1]
          have hone : pairEntriesFor nu nv [(nu, nv, dval debts u v - dval debts v u)] =
              [(nu, nv, dval debts u v - dval debts v u)] := by
            simp [pairEntriesFor]
          rw [hone, List.append_nil]
        · rw [if_neg h1] at h
          by_cases h2 : dval debts u v - dval debts v u < 0
          · rw [if_pos h2, hv, hu] at h
            have hih := ih ((u, v) :: processed)
              (acc ++ [(nv, nu, -(dval debts u v - dval debts v u))]) out procOut h hndr
              hp1' hp2'
            have hP1 : (u, v) ∈ (u, v) :: processed ∨ (v, u) ∈ (u, v) :: processed :=
              Or.inl (List.mem_cons_self _ _)
            have hcC : ((u, v) ∈ (u, v) :: rest ∨ (v, u) ∈ (u, v) :: rest) ∧
                dval debts u v - dval debts v u ≠ 0 :=
              ⟨Or.inl (List.mem_cons_self _ _), ne_of_lt h2⟩
            rw [hih, if_pos hP1, pairEntriesFor_append]
            rw [if_pos hcC, if_neg h1]
            have hone : pairEntriesFor nu nv
                [(nv, nu, -(dval debts u v - dval debts v u))] =
                [(nv, nu, -(dval debts u v - dval debts v u))] := by
              simp [pairEntriesFor]
            rw [hone, List.append_nil]
          · rw [if_neg h2] at h
            have hzero : dval debts u v - dval debts v u = 0 := le_antisymm
              (not_lt.1 h1) (not_lt.1 h2)
            have hih := ih ((u, v) :: processed) acc out procOut h hndr hp1' hp2'
            have hP1 : (u, v) ∈ (u, v) :: processed ∨ (v, u) ∈ (u, v) :: processed :=
              Or.inl (List.mem_cons_self _ _)
            have hcC : ¬ (((u, v) ∈ (u, v) :: rest ∨ (v, u) ∈ (u, v) :: rest) ∧
                dval debts u v - dval debts v u ≠ 0) := fun hc => hc.2 hzero
            rw [hih, if_pos hP1, if_neg hcC]
      · by_cases hxyvu : (x, y) = (v, u)
        · -- second orientation of our pair
          have hx : v = x := (congrArg Prod.fst hxyvu).symm
          have hy : u = y := (congrArg Prod.snd hxyvu).symm
          subst hx
          subst hy
          have hpuv : (u, v) ∉ processed := hskip
          have hpvu : (v, u) ∉ processed := fun hm => hp2 hm (List.mem_cons_self _ _)
          have hP : ¬ ((u, v) ∈ processed ∨ (v, u) ∈ processed) := by
            rintro (hm | hm)
            · exact hpuv hm
            · exact hpvu hm
          rw [if_neg hP]
          have hp1' : (u, v) ∈ (v, u) :: processed → (u, v) ∉ rest := by
            intro hm
            rcases List.mem_cons.1 hm with hm | hm
            · exact absurd (congrArg Prod.fst hm) huv
            · exact fun hr => hp1 hm (List.mem_cons_of_mem _ hr)
          have hp2' : (v, u) ∈ (v, u) :: processed → (v, u) ∉ rest :=
            fun _ => hhead
          by_cases h1 : 0 < dval debts v u - dval debts u v
          · rw [if_pos h1, hv, hu] at h
            have hih := ih ((v, u) :: processed)
              (acc ++ [(nv, nu, dval debts v u - dval debts u v)]) out procOut h hndr
              hp1' hp2'
            have hP1 : (u, v) ∈ (v, u) :: processed ∨ (v, u) ∈ (v, u) :: processed :=
              Or.inr (List.mem_cons_self _ _)
            have hne : dval debts u v - dval debts v u ≠ 0 := by
              intro hc
              rw [sub_eq_zero] at hc
              rw [hc] at h1
              simp at h1
            have hnot : ¬ 0 < dval debts u v - dval debts v u := by
              intro hc
              have := add_pos hc h1
              simp at this
            have hcC : ((u, v) ∈ (v, u) :: rest ∨ (v, u) ∈ (v, u) :: rest) ∧
                dval debts u v - dval debts v u ≠ 0 :=
              ⟨Or.inr (List.mem_cons_self _ _), hne⟩
            rw [hih, if_pos hP1, pairEntriesFor_append]
            rw [if_pos hcC, if_neg hnot]
            have hval : dval debts v u - dval debts u v =
                -(dval debts u v - dval debts v u) := by ring
            have hone : pairEntriesFor nu nv
                [(nv, nu, dval debts v u - dval debts u v)] =
                [(nv, nu, dval debts v u - dval debts u v)] := by
              simp [pairEntriesFor]
            rw [hone, List.append_nil, hval]
          · rw [if_neg h1] at h
            by_cases h2 : dval debts v u - dval debts u v < 0
            · rw [if_pos h2, hu, hv] at h
              have hih := ih ((v, u) :: processed)
                (acc ++ [(nu, nv, -(dval debts v u - dval debts u v))]) out procOut h hndr
                hp1' hp2'
              have hP1 : (u, v) ∈ (v, u) :: processed ∨ (v, u) ∈ (v, u) :: processed :=
                Or.inr (List.mem_cons_self _ _)
              have hpos : 0 < dval debts u v - dval debts v u := by linarith
              have hcC : ((u, v) ∈ (v, u) :: rest ∨ (v, u) ∈ (v, u) :: rest) ∧
                  dval debts u v - dval debts v u ≠ 0 :=
                ⟨Or.inr (List.mem_cons_self _ _), ne_of_gt hpos⟩
              rw [hih, if_pos hP1, pairEntriesFor_append]
              rw [if_pos hcC, if_pos hpos]
              have hval : -(dval debts v u - dval debts u v) =
                  dval debts u v - dval debts v u := by ring
              have hone : pairEntriesFor nu nv
                  [(nu, nv, -(dval debts v u - dval debts u v))] =
                  [(nu, nv, -(dval debts v u - dval debts u v))] := by
                simp [pairEntriesFor]
              rw [hone, List.append_nil, hval]
            · rw [if_neg h2] at h
              have hzero : dval debts u v - dval debts v u = 0 := by
                have := le_antisymm (not_lt.1 h1) (not_lt.1 h2)
                linarith [this]
              have hih := ih ((v, u) :: processed) acc out procOut h hndr hp1' hp2'
              have hP1 : (u, v) ∈ (v, u) :: processed ∨ (v, u) ∈ (v, u) :: processed :=
                Or.inr (List.mem_cons_self _ _)
              have hcC : ¬ (((u, v) ∈ (v, u) :: rest ∨ (v, u) ∈ (v, u) :: rest) ∧
                  dval debts u v - dval debts v u ≠ 0) := fun hc => hc.2 hzero
              rw [hih, if_pos hP1, if_neg hcC]
        · -- a visit of an unrelated pair
          have hp1' : (u, v) ∈ (x, y) :: processed → (u, v) ∉ rest := by
            intro hm
            rcases List.mem_cons.1 hm with hm | hm
            · exact absurd hm.symm hxyuv
            · exact fun hr => hp1 hm (List.mem_cons_of_mem _ hr)
          have hp2' : (v, u) ∈ (x, y) :: processed → (v, u) ∉ rest := by
            intro hm
            rcases List.mem_cons.1 hm with hm | hm
            · exact absurd hm.symm hxyvu
            · exact fun hr => hp2 hm (List.mem_cons_of_mem _ hr)
          have hProc : ∀ w : Nat × Nat, w = (u, v) ∨ w = (v, u) →
              (w ∈ (x, y) :: processed ↔ w ∈ processed) := by
            intro w hw
            constructor
            · intro hm
              rcases List.mem_cons.1 hm with hm | hm
              · exfalso
                rcases hw with hw | hw
                · exact hxyuv (hm ▸ hw)
                · exact hxyvu (hm ▸ hw)
              · exact hm
            · exact List.mem_cons_of_mem _
          have hMem : ∀ w : Nat × Nat, w = (u, v) ∨ w = (v, u) →
              (w ∈ (x, y) :: rest ↔ w ∈ rest) := by
            intro w hw
            constructor
            · intro hm
              rcases List.mem_cons.1 hm with hm | hm
              · exfalso
                rcases hw with hw | hw
                · exact hxyuv (hm ▸ hw)
                · exact hxyvu (hm ▸ hw)
              · exact hm
            · exact List.mem_cons_of_mem _
          have hdrop : ∀ (e : Settl), e.1 ≠ nu ∨ e.2.1 ≠ nv → e.1 ≠ nv ∨ e.2.1 ≠ nu →
              pairEntriesFor nu nv [e] = [] := by
            intro e h1 h2
            simp only [pairEntriesFor, List.filter]
            have : ¬ ((e.1 = nu ∧ e.2.1 = nv) ∨ (e.1 = nv ∧ e.2.1 = nu)) := by
              rintro (⟨ha, hb⟩ | ⟨ha, hb⟩)
              · rcases h1 with hc | hc
                · exact hc ha
                · exact hc hb
              · rcases h2 with hc | hc
                · exact hc ha
                · exact hc hb
            simp [this]
          have hcong : pairEntriesFor nu nv acc ++
                (if (u, v) ∈ processed ∨ (v, u) ∈ processed then []
                 else if ((u, v) ∈ rest ∨ (v, u) ∈ rest) ∧
                     dval debts u v - dval debts v u ≠ 0 then
                   if 0 < dval debts u v - dval debts v u then
                     [(nu, nv, dval debts u v - dval debts v u)]
                   else [(nv, nu, -(dval debts u v - dval debts v u))]
                 else []) =
              pairEntriesFor nu nv acc ++
                (if (u, v) ∈ processed ∨ (v, u) ∈ processed then []
                 else if ((u, v) ∈ (x, y) :: rest ∨ (v, u) ∈ (x, y) :: rest) ∧
                     dval debts u v - dval debts v u ≠ 0 then
                   if 0 < dval debts u v - dval debts v u then
                     [(nu, nv, dval debts u v - dval debts v u)]
                   else [(nv, nu, -(dval debts u v - dval debts v u))]
                 else []) := by
            congr 1
            by_cases hP : (u, v) ∈ processed ∨ (v, u) ∈ processed
            · rw [if_pos hP, if_pos hP]
            · rw [if_neg hP, if_neg hP]
              by_cases hm : (u, v) ∈ rest ∨ (v, u) ∈ rest
              · have hm' : (u, v) ∈ (x, y) :: rest ∨ (v, u) ∈ (x, y) :: rest := by
                  rcases hm with hm | hm
                  · exact Or.inl (List.mem_cons_of_mem _ hm)
                  · exact Or.inr (List.mem_cons_of_mem _ hm)
                by_cases hne : dval debts u v - dval debts v u ≠ 0
                · have hcR : ((u, v) ∈ rest ∨ (v, u) ∈ rest) ∧
                      dval debts u v - dval debts v u ≠ 0 := ⟨hm, hne⟩
                  have hcC2 : ((u, v) ∈ (x, y) :: rest ∨ (v, u) ∈ (x, y) :: rest) ∧
                      dval debts u v - dval debts v u ≠ 0 := ⟨hm', hne⟩
                  rw [if_pos hcR, if_pos hcC2]
                · have hcR : ¬ (((u, v) ∈ rest ∨ (v, u) ∈ rest) ∧
                      dval debts u v - dval debts v u ≠ 0) := fun hc => hne hc.2
                  have hcC2 : ¬ (((u, v) ∈ (x, y) :: rest ∨ (v, u) ∈ (x, y) :: rest) ∧
                      dval debts u v - dval debts v u ≠ 0) := fun hc => hne hc.2
                  rw [if_neg hcR, if_neg hcC2]
              · have hm' : ¬ ((u, v) ∈ (x, y) :: rest ∨ (v, u) ∈ (x, y) :: rest) := by
                  rintro (hc | hc)
                  · exact hm (Or.inl ((hMem (u, v) (Or.inl rfl)).1 hc))
                  · exact hm (Or.inr ((hMem (v, u) (Or.inr rfl)).1 hc))
                have hcR : ¬ (((u, v) ∈ rest ∨ (v, u) ∈ rest) ∧
                    dval debts u v - dval debts v u ≠ 0) := fun hc => hm hc.1
                have hcC2 : ¬ (((u, v) ∈ (x, y) :: rest ∨ (v, u) ∈ (x, y) :: rest) ∧
                    dval debts u v - dval debts v u ≠ 0) := fun hc => hm' hc.1
                rw [if_neg hcR, if_neg hcC2]
          by_cases h1 : 0 < dval debts x y - dval debts y x
          · cases hx : lookupA names x with
            | none =>
              rw [if_pos h1, hx] at h
              cases hy : lookupA names y <;> rw [hy] at h <;> simp at h
            | some nx =>
              cases hy : lookupA names y with
              | none => rw [if_pos h1, hx, hy] at h; simp at h
              | some ny =>
                rw [if_pos h1, hx, hy] at h
                have hih := ih ((x, y) :: processed)
                  (acc ++ [(nx, ny, dval debts x y - dval debts y x)]) out procOut h hndr
                  hp1' hp2'
                rw [hih, pairEntriesFor_append]
                have hnxu : nx = nu → x = u := fun he => namesInj_lookup names hinj hx
                  (by rw [hu, he])
                have hnyv : ny = nv → y = v := fun he => namesInj_lookup names hinj hy
                  (by rw [hv, he])
                have hnxv : nx = nv → x = v := fun he => namesInj_lookup names hinj hx
                  (by rw [hv, he])
                have hnyu : ny = nu → y = u := fun he => namesInj_lookup names hinj hy
                  (by rw [hu, he])
                have hone : pairEntriesFor nu nv
                    [(nx, ny, dval debts x y - dval debts y x)] = [] := by
                  refine hdrop _ ?_ ?_
                  · by_cases hcx : nx = nu
                    · right
                      intro hcy
                      exact hxyuv (by rw [hnxu hcx, hnyv hcy])
                    · exact Or.inl hcx
                  · by_cases hcx : nx = nv
                    · right
                      intro hcy
                      exact hxyvu (by rw [hnxv hcx, hnyu hcy])
                    · exact Or.inl hcx
                rw [hone, List.append_nil]
                have hPe : ∀ w : Nat × Nat, w = (u, v) ∨ w = (v, u) →
                    (w ∈ (x, y) :: processed ↔ w ∈ processed) := hProc
                rw [show (if (u, v) ∈ (x, y) :: processed ∨ (v, u) ∈ (x, y) :: processed
                    then ([] : List Settl)
                    else if ((u, v) ∈ rest ∨ (v, u) ∈ rest) ∧
                        dval debts u v - dval debts v u ≠ 0 then
                      if 0 < dval debts u v - dval debts v u then
                        [(nu, nv, dval debts u v - dval debts v u)]
                      else [(nv, nu, -(dval debts u v - dval debts v u))]
                    else []) =
                    (if (u, v) ∈ processed ∨ (v, u) ∈ processed then ([] : List Settl)
                    else if ((u, v) ∈ rest ∨ (v, u) ∈ rest) ∧
                        dval debts u v - dval debts v u ≠ 0 then
                      if 0 < dval debts u v - dval debts v u then
                        [(nu, nv, dval debts u v - dval debts v u)]
                      else [(nv, nu, -(dval debts u v - dval debts v u))]
                    else []) from by
                  by_cases hP : (u, v) ∈ processed ∨ (v, u) ∈ processed
                  · rw [if_pos hP, if_pos (by
                      rcases hP with hP | hP
                      · exact Or.inl (List.mem_cons_of_mem _ hP)
                      · exact Or.inr (List.mem_cons_of_mem _ hP))]
                  · rw [if_neg hP, if_neg (by
                      rintro (hc | hc)
                      · exact hP (Or.inl ((hPe (u, v) (Or.inl rfl)).1 hc))
                      · exact hP (Or.inr ((hPe (v, u) (Or.inr rfl)).1 hc)))]]
                exact hcong
          · rw [if_neg h1] at h
            by_cases h2 : dval debts x y - dval debts y x < 0
            · cases hy : lookupA names y with
              | none =>
                rw [if_pos h2, hy] at h
                cases hx : lookupA names x <;> rw [hx] at h <;> simp at h
              | some ny =>
                cases hx : lookupA names x with
                | none => rw [if_pos h2, hy, hx] at h; simp at h
                | some nx =>
                  rw [if_pos h2, hy, hx] at h
                  have hih := ih ((x, y) :: processed)
                    (acc ++ [(ny, nx, -(dval debts x y - dval debts y x))]) out procOut h
                    hndr hp1' hp2'
                  rw [hih, pairEntriesFor_append]
                  have hnxu : nx = nu → x = u := fun he => namesInj_lookup names hinj hx
                    (by rw [hu, he])
                  have hnyv : ny = nv → y = v := fun he => namesInj_lookup names hinj hy
                    (by rw [hv, he])
                  have hnxv : nx = nv → x = v := fun he => namesInj_lookup names hinj hx
                    (by rw [hv, he])
                  have hnyu : ny = nu → y = u := fun he => namesInj_lookup names hinj hy
                    (by rw [hu, he])
                  have hone : pairEntriesFor nu nv
                      [(ny, nx, -(dval debts x y - dval debts y x))] = [] := by
                    refine hdrop _ ?_ ?_
                    · by_cases hcy : ny = nu
                      · right
                        intro hcx
                        exact hxyvu (by rw [hnxv hcx, hnyu hcy])
                      · exact Or.inl hcy
                    · by_cases hcy : ny = nv
                      · right
                        intro hcx
                        exact hxyuv (by rw [hnxu hcx, hnyv hcy])
                      · exact Or.inl hcy
                  rw [hone, List.append_nil]
                  rw [show (if (u, v) ∈ (x, y) :: processed ∨ (v, u) ∈ (x, y) :: processed
                      then ([] : List Settl)
                      else if ((u, v) ∈ rest ∨ (v, u) ∈ rest) ∧
                          dval debts u v - dval debts v u ≠ 0 then
                        if 0 < dval debts u v - dval debts v u then
                          [(nu, nv, dval debts u v - dval debts v u)]
                        else [(nv, nu, -(dval debts u v - dval debts v u))]
                      else []) =
                      (if (u, v) ∈ processed ∨ (v, u) ∈ processed then ([] : List Settl)
                      else if ((u, v) ∈ rest ∨ (v, u) ∈ rest) ∧
                          dval debts u v - dval debts v u ≠ 0 then
                        if 0 < dval debts u v - dval debts v u then
                          [(nu, nv, dval debts u v - dval debts v u)]
                        else [(nv, nu, -(dval debts u v - dval debts v u))]
                      else []) from by
                    by_cases hP : (u, v) ∈ processed ∨ (v, u) ∈ processed
                    · rw [if_pos hP, if_pos (by
                        rcases hP with hP | hP
                        · exact Or.inl (List.mem_cons_of_mem _ hP)
                        · exact Or.inr (List.mem_cons_of_mem _ hP))]
                    · rw [if_neg hP, if_neg (by
                        rintro (hc | hc)
                        · exact hP (Or.inl ((hProc (u, v) (Or.inl rfl)).1 hc))
                        · exact hP (Or.inr ((hProc (v, u) (Or.inr rfl)).1 hc)))]]
                  exact hcong
            · rw [if_neg h2] at h
              have hih := ih ((x, y) :: processed) acc out procOut h hndr hp1' hp2'
              rw [hih]
              rw [show (if (u, v) ∈ (x, y) :: processed ∨ (v, u) ∈ (x, y) :: processed
                  then ([] : List Settl)
                  else if ((u, v) ∈ rest ∨ (v, u) ∈ rest) ∧
                      dval debts u v - dval debts v u ≠ 0 then
                    if 0 < dval debts u v - dval debts v u then
                      [(nu, nv, dval debts u v - dval debts v u)]
                    else [(nv, nu, -(dval debts u v - dval debts v u))]
                  else []) =
                  (if (u, v) ∈ processed ∨ (v, u) ∈ processed then ([] : List Settl)
                  else if ((u, v) ∈ rest ∨ (v, u) ∈ rest) ∧
                      dval debts u v - dval debts v u ≠ 0 then
                    if 0 < dval debts u v - dval debts v u then
                      [(nu, nv, dval debts u v - dval debts v u)]
                    else [(nv, nu, -(dval debts u v - dval debts v u))]
                  else []) from by
                by_cases hP : (u, v) ∈ processed ∨ (v, u) ∈ processed
                · rw [if_pos hP, if_pos (by
                    rcases hP with hP | hP
                    · exact Or.inl (List.mem_cons_of_mem _ hP)
                    · exact Or.inr (List.mem_cons_of_mem _ hP))]
                · rw [if_neg hP, if_neg (by
                    rintro (hc | hc)
                    · exact hP (Or.inl ((hProc (u, v) (Or.inl rfl)).1 hc))
                    · exact hP (Or.inr ((hProc (v, u) (Or.inr rfl)).1 hc)))]]
              exact hcong

/-- C3: for every post-payment debt structure (well-formed as every Python
nested dict is: distinct outer keys, distinct inner keys) with pairwise
distinct display names, and every unordered pair of distinct users u and v,
the final settlements contain at most one entry for that pair: exactly one
entry of amount |debt[u][v] - debt[v][u]| paid by the side with the larger
outgoing debt when the net is nonzero, and no entry at all when the net is
zero — never two entries. -/
theorem pairwise_net_once (debts : Debts) (names : List (Nat × String))
    (hinj : NamesInj names)
    (hout : (keysA debts).Nodup) (hinn : ∀ kv ∈ debts, (keysA kv.2).Nodup)
    (u v : Nat) (huv : u ≠ v) (nu nv : String)
    (hu : lookupA names u = some nu) (hv : lookupA names v = some nv)
    (fs : List Settl) (hC : stepC debts names = some fs) :
    pairEntriesFor nu nv fs =
      if 0 < dval debts u v - dval debts v u then
        [(nu, nv, dval debts u v - dval debts v u)]
      else if dval debts u v - dval debts v u < 0 then
        [(nv, nu, -(dval debts u v - dval debts v u))]
      else [] := by
  rw [stepC] at hC
  cases hf : stepCfold debts names (visits debts) [] [] with
  | none => rw [hf] at hC; simp at hC
  | some pr =>
    rw [hf] at hC
    simp only [Option.map_some', Option.some.injEq] at hC
    obtain ⟨out, procOut⟩ := pr
    obtain rfl : fs = out := hC.symm
    have hmain := stepCfold_pair debts names hinj u v huv nu nv hu hv (visits debts)
      [] [] fs procOut hf (visits_nodup debts hout hinn)
      (fun hm => absurd hm (List.not_mem_nil _))
      (fun hm => absurd hm (List.not_mem_nil _))
    rw [hmain]
    simp only [pairEntriesFor_nil, List.nil_append]
    rw [if_neg (show ¬ ((u, v) ∈ ([] : List (Nat × Nat)) ∨
        (v, u) ∈ ([] : List (Nat × Nat))) by
      rintro (hm | hm) <;> exact absurd hm (List.not_mem_nil _))]
    by_cases hne : dval debts u v - dval debts v u ≠ 0
    · have hmem : (u, v) ∈ visits debts ∨ (v, u) ∈ visits debts := by
        by_cases h0 : dval debts u v = 0
        · refine Or.inr (mem_visits_of_dval_ne debts v u ?_)
          intro hc
          apply hne
          rw [h0, hc]
          ring
        · exact Or.inl (mem_visits_of_dval_ne debts u v h0)
      have hcond : ((u, v) ∈ visits debts ∨ (v, u) ∈ visits debts) ∧
          dval debts u v - dval debts v u ≠ 0 := ⟨hmem, hne⟩
      rw [if_pos hcond]
      by_cases h1 : 0 < dval debts u v - dval debts v u
      · rw [if_pos h1, if_pos h1]
      · rw [if_neg h1, if_neg h1, if_pos (lt_of_le_of_ne (not_lt.1 h1) hne)]
    · push_neg at hne
      have hcond : ¬ (((u, v) ∈ visits debts ∨ (v, u) ∈ visits debts) ∧
          dval debts u v - dval debts v u ≠ 0) := fun hc => hc.2 hne
      have h1 : ¬ 0 < dval debts u v - dval debts v u := by
        rw [hne]
        exact lt_irrefl 0
      have h2 : ¬ dval debts u v - dval debts v u < 0 := by
        rw [hne]
        exact lt_irrefl 0
      rw [if_neg hcond, if_neg h1, if_neg h2]

/-- Witness for C3 on the full-cancellation structure: both directions hold
40, the net is zero and no entry is emitted for the pair. -/
theorem pairwise_net_once_witness :
    pairEntriesFor "A" "B" ([] : List Settl) =
      if 0 < dval [(1, [(2, (40 : ℚ))]), (2, [(1, (40 : ℚ))])] 1 2 -
          dval [(1, [(2, (40 : ℚ))]), (2, [(1, (40 : ℚ))])] 2 1 then
        [("A", "B", dval [(1, [(2, (40 : ℚ))]), (2, [(1, (40 : ℚ))])] 1 2 -
          dval [(1, [(2, (40 : ℚ))]), (2, [(1, (40 : ℚ))])] 2 1)]
      else if dval [(1, [(2, (40 : ℚ))]), (2, [(1, (40 : ℚ))])] 1 2 -
          dval [(1, [(2, (40 : ℚ))]), (2, [(1, (40 : ℚ))])] 2 1 < 0 then
        [("B", "A", -(dval [(1, [(2, (40 : ℚ))]), (2, [(1, (40 : ℚ))])] 1 2 -
          dval [(1, [(2, (40 : ℚ))]), (2, [(1, (40 : ℚ))])] 2 1))]
      else [] :=
  pairwise_net_once [(1, [(2, (40 : ℚ))]), (2, [(1, (40 : ℚ))])] [(1, "A"), (2, "B")]
    (by decide) (by decide) (by decide) 1 2 (by decide) "A" "B" (by decide) (by decide)
    [] (by norm_num [stepC, visits, stepCfold, keysA, innerOf, dval, lookupA, lookupA_cons])

/-! Zero-amount payments (claim C5). -/

/-- C5 counterexample: appending a zero payment from user 1 to user 2 moves
the pair's settlement earlier in the output sequence, because the zero
payment creates the (1, 2) edge inside user 1's inner dict, so Step C first
visits the pair from that direction.  The settlement sequences differ. -/
theorem zero_payment_cex :
    (compute_settlements ⟨[⟨3, "a", [(1, (5 : ℚ))]⟩, ⟨5, "b", [(4, (7 : ℚ))]⟩,
        ⟨1, "c", [(2, (10 : ℚ))]⟩],
      [⟨1, 2, 0⟩], [(1, "A"), (2, "B"), (3, "C"), (4, "D"), (5, "E")]⟩).map Prod.fst ≠
    (compute_settlements ⟨[⟨3, "a", [(1, (5 : ℚ))]⟩, ⟨5, "b", [(4, (7 : ℚ))]⟩,
        ⟨1, "c", [(2, (10 : ℚ))]⟩],
      [], [(1, "A"), (2, "B"), (3, "C"), (4, "D"), (5, "E")]⟩).map Prod.fst := by
  norm_num [compute_settlements, stepA, stepAExpense, stepAPart, addDebt, stepB,
    applyPayment, reverseIfNeg, stepC, visits, stepCfold, renderReadable, netBalance,
    netBalanceAux, innerOf, dval, keysA, setA, lookupA, setA_cons, lookupA_cons]

/-- Generalization of the addDebt value lemmas: setting cell (a, b). -/
theorem dval_setPair_self (d : Debts) (a b : Nat) (val : ℚ) :
    dval (setA d a (setA (innerOf d a) b val)) a b = val := by
  simp [dval, innerOf]

theorem dval_setPair_other (d : Debts) (a b u v : Nat) (val : ℚ)
    (h : ¬ (u = a ∧ v = b)) :
    dval (setA d a (setA (innerOf d a) b val)) u v = dval d u v := by
  by_cases hu : u = a
  · subst hu
    have hv : v ≠ b := fun e => h ⟨rfl, e⟩
    simp [dval, innerOf, lookupA_setA_ne _ _ _ _ hv]
  · simp [dval, innerOf, lookupA_setA_ne _ _ _ _ hu]

/-- Every debt value is non-negative, phrased through `dval`. -/
abbrev DvalNonneg (d : Debts) : Prop := ∀ u v : Nat, 0 ≤ dval d u v

theorem dvalNonneg_setPair (d : Debts) (a b : Nat) (val : ℚ)
    (hd : DvalNonneg d) (hval : 0 ≤ val) :
    DvalNonneg (setA d a (setA (innerOf d a) b val)) := by
  intro u v
  by_cases h : u = a ∧ v = b
  · rw [h.1, h.2, dval_setPair_self]
    exact hval
  · rw [dval_setPair_other d a b u v val h]
    exact hd u v

theorem dvalNonneg_addDebt (d : Debts) (a b : Nat) (s : ℚ)
    (hd : DvalNonneg d) (hs : 0 ≤ s) : DvalNonneg (addDebt d a b s) := by
  rw [addDebt]
  have : (lookupA (innerOf d a) b).getD 0 = dval d a b := rfl
  rw [this]
  exact dvalNonneg_setPair d a b _ hd (add_nonneg (hd a b) hs)

theorem dvalNonneg_applyPayment (d : Debts) (pay : Payment)
    (hd : DvalNonneg d) : DvalNonneg (applyPayment d pay) := by
  simp only [applyPayment, reverseIfNeg]
  split
  · rename_i hneg
    intro u v
    by_cases h3 : u = pay.payerId ∧ v = pay.payeeId
    · rw [h3.1, h3.2, dval_setPair_self]
    · rw [dval_setPair_other _ _ _ _ _ _ h3]
      by_cases h2 : u = pay.payeeId ∧ v = pay.payerId
      · rw [h2.1, h2.2, dval_setPair_self]
        linarith [hneg]
      · rw [dval_setPair_other _ _ _ _ _ _ h2, dval_setPair_other _ _ _ _ _ _ h3]
        exact hd u v
  · rename_i hpos
    intro u v
    by_cases h1 : u = pay.payerId ∧ v = pay.payeeId
    · rw [h1.1, h1.2, dval_setPair_self]
      exact not_lt.1 hpos
    · rw [dval_setPair_other _ _ _ _ _ _ h1]
      exact hd u v

theorem lookupA_append {α β : Type} [DecidableEq α] (l1 l2 : List (α × β)) (a : α) :
    lookupA (l1 ++ l2) a =
      match lookupA l1 a with
      | some x => some x
      | none => lookupA l2 a := by
  induction l1 with
  | nil => simp [lookupA]
  | cons hd t ih =>
    obtain ⟨x, y⟩ := hd
    by_cases hx : x = a
    · simp [lookupA_cons, hx]
    · simp only [List.cons_append, lookupA_cons, if_neg hx]
      exact ih

theorem applyPayment_zero (d : Debts) (p q : Nat) (hnn : 0 ≤ dval d p q) :
    applyPayment d ⟨p, q, 0⟩ = setA d p (setA (innerOf d p) q (dval d p q)) := by
  simp only [applyPayment, reverseIfNeg, sub_zero]
  have hnn' : ¬ ((lookupA (innerOf d p) q).getD 0 < 0) := not_lt.2 hnn
  rw [if_neg hnn']
  rfl

theorem applyPayment_zero_idem (d : Debts) (p q : Nat) (inn : Inner) (c : ℚ)
    (hp : lookupA d p = some inn) (hq : lookupA inn q = some c)
    (hnn : 0 ≤ dval d p q) : applyPayment d ⟨p, q, 0⟩ = d := by
  rw [applyPayment_zero d p q hnn]
  have hinn : innerOf d p = inn := by rw [innerOf, hp]; rfl
  have hdval : dval d p q = c := by rw [dval, hinn, hq]; rfl
  rw [hinn, hdval, setA_lookup_self inn q c hq, setA_lookup_self d p inn hp]

theorem applyPayment_zero_newInner (d : Debts) (p q : Nat) (inn : Inner)
    (hp : lookupA d p = some inn) (hq : q ∉ keysA inn) :
    applyPayment d ⟨p, q, 0⟩ = setA d p (inn ++ [(q, 0)]) := by
  have hinn : innerOf d p = inn := by rw [innerOf, hp]; rfl
  have hdval : dval d p q = 0 := by
    rw [dval, hinn, (lookupA_eq_none_iff inn q).2 hq]
    rfl
  rw [applyPayment_zero d p q (le_of_eq hdval.symm), hinn, hdval,
    setA_of_not_mem inn q 0 hq]

theorem applyPayment_zero_newOuter (d : Debts) (p q : Nat)
    (hp : lookupA d p = none) :
    applyPayment d ⟨p, q, 0⟩ = d ++ [(p, [(q, 0)])] := by
  have hinn : innerOf d p = [] := by rw [innerOf, hp]; rfl
  have hdval : dval d p q = 0 := by rw [dval, hinn]; rfl
  rw [applyPayment_zero d p q (le_of_eq hdval.symm), hinn, hdval]
  rw [show setA ([] : Inner) q 0 = [(q, 0)] from rfl]
  exact setA_of_not_mem d p _ ((lookupA_eq_none_iff d p).1 hp)

theorem flatMap_congr_mem {α β : Type} (l : List α) (f g : α → List β)
    (h : ∀ a ∈ l, f a = g a) : l.flatMap f = l.flatMap g := by
  induction l with
  | nil => rfl
  | cons a t ih =>
    rw [List.flatMap_cons, List.flatMap_cons, h a (List.mem_cons_self _ _),
      ih (fun b hb => h b (List.mem_cons_of_mem _ hb))]

theorem mem_visits_iff (d : Debts) (a b : Nat) :
    (a, b) ∈ visits d ↔ a ∈ keysA d ∧ b ∈ keysA (innerOf d a) := by
  unfold visits
  constructor
  · intro h
    obtain ⟨u, hu, hm⟩ := List.mem_flatMap.1 h
    obtain ⟨v, hv, he⟩ := List.mem_map.1 hm
    have ha : u = a := congrArg Prod.fst he
    have hb : v = b := congrArg Prod.snd he
    constructor
    · rw [← ha]; exact hu
    · rw [← ha, ← hb]; exact hv
  · rintro ⟨ha, hb⟩
    exact List.mem_flatMap.2 ⟨a, ha, List.mem_map.2 ⟨b, hb, rfl⟩⟩

theorem dval_zero_newInner (d : Debts) (p q : Nat) (inn : Inner)
    (hp : lookupA d p = some inn) (hq : q ∉ keysA inn) (u v : Nat) :
    dval (setA d p (inn ++ [(q, 0)])) u v = dval d u v := by
  by_cases hu : u = p
  · subst hu
    have hinn : innerOf d u = inn := by rw [innerOf, hp]; rfl
    rw [dval, innerOf_setA_self, dval, hinn, lookupA_append]
    cases hl : lookupA inn v with
    | some x => rfl
    | none =>
      by_cases hv : q = v
      · subst hv
        rw [lookupA_cons]
        simp
      · rw [lookupA_cons, if_neg hv]
        rfl
  · rw [dval, innerOf_setA_ne _ _ _ _ hu, dval]

theorem dval_zero_newOuter (d : Debts) (p q : Nat)
    (hp : lookupA d p = none) (u v : Nat) :
    dval (d ++ [(p, [(q, 0)])]) u v = dval d u v := by
  by_cases hu : u = p
  · subst hu
    have h1 : innerOf (d ++ [(u, [(q, 0)])]) u = [(q, 0)] := by
      rw [innerOf, lookupA_append, hp, lookupA_cons]
      simp
    have h2 : innerOf d u = [] := by rw [innerOf, hp]; rfl
    rw [dval, dval, h1, h2]
    by_cases hv : q = v
    · simp [lookupA_cons, hv]
    · simp [lookupA_cons, hv]
  · have h1 : innerOf (d ++ [(p, [(q, 0)])]) u = innerOf d u := by
      rw [innerOf, innerOf, lookupA_append]
      cases hl : lookupA d u with
      | some inn => rfl
      | none =>
        rw [lookupA_cons, if_neg (fun he => hu he.symm)]
        rfl
    rw [dval, dval, h1]

theorem visits_zero_newOuter (d : Debts) (p q : Nat)
    (hp : lookupA d p = none) :
    visits (d ++ [(p, [(q, 0)])]) = visits d ++ [(p, q)] := by
  unfold visits
  rw [keysA_append]
  rw [List.flatMap_append]
  congr 1
  · refine flatMap_congr_mem _ _ _ ?_
    intro a ha
    have hap : a ≠ p := by
      intro he
      rw [he] at ha
      exact (lookupA_eq_none_iff d p).1 hp ha
    have : innerOf (d ++ [(p, [(q, 0)])]) a = innerOf d a := by
      rw [innerOf, innerOf, lookupA_append]
      cases hl : lookupA d a with
      | some inn => rfl
      | none =>
        rw [lookupA_cons, if_neg (Ne.symm hap)]
        rfl
    rw [this]
  · have : innerOf (d ++ [(p, [(q, 0)])]) p = [(q, 0)] := by
      rw [innerOf, lookupA_append, hp, lookupA_cons]
      simp
    simp [keysA_cons, this]

theorem visits_zero_newInner (d : Debts) (p q : Nat) (inn : Inner)
    (hp : lookupA d p = some inn) (hq : q ∉ keysA inn)
    (hout : (keysA d).Nodup) :
    ∃ L1 L2, visits d = L1 ++ L2 ∧
      visits (setA d p (inn ++ [(q, 0)])) = L1 ++ (p, q) :: L2 := by
  have hpmem : p ∈ keysA d := (lookupA_isSome_iff d p).1 (by rw [hp]; rfl)
  obtain ⟨K1, K2, hK⟩ := List.append_of_mem hpmem
  have hnd : (K1 ++ p :: K2).Nodup := hK ▸ hout
  have hpK1 : p ∉ K1 := by
    intro hc
    have := (List.nodup_append.1 hnd).2.2
    exact this hc (List.mem_cons_self _ _)
  have hpK2 : p ∉ K2 := by
    have := (List.nodup_append.1 hnd).2.1
    exact (List.nodup_cons.1 this).1
  have hinn : innerOf d p = inn := by rw [innerOf, hp]; rfl
  have hkeys1 : keysA (setA d p (inn ++ [(q, 0)])) = keysA d :=
    keysA_setA_mem d p _ hpmem
  have hinnK : ∀ a, a ≠ p →
      innerOf (setA d p (inn ++ [(q, 0)])) a = innerOf d a := by
    intro a ha
    exact innerOf_setA_ne _ _ _ _ ha
  refine ⟨K1.flatMap (fun u => (keysA (innerOf d u)).map (fun v => (u, v))) ++
      (keysA inn).map (fun v => (p, v)),
    K2.flatMap (fun u => (keysA (innerOf d u)).map (fun v => (u, v))), ?_, ?_⟩
  · unfold visits
    rw [hK, List.flatMap_append, List.flatMap_cons, hinn, List.append_assoc]
  · unfold visits
    rw [hkeys1, hK, List.flatMap_append, List.flatMap_cons]
    rw [flatMap_congr_mem K1 _ _ (fun a ha => by
      rw [hinnK a (fun he => hpK1 (he ▸ ha))])]
    rw [flatMap_congr_mem K2 _ _ (fun a ha => by
      rw [hinnK a (fun he => hpK2 (he ▸ ha))])]
    rw [innerOf_setA_self, keysA_append, List.map_append]
    simp [List.append_assoc]

theorem stepCfold_append (debts : Debts) (names : List (Nat × String))
    (xs ys : List (Nat × Nat)) :
    ∀ (P : List (Nat × Nat)) (A : List Settl),
      stepCfold debts names (xs ++ ys) P A =
        match stepCfold debts names xs P A with
        | some r => stepCfold debts names ys r.2 r.1
        | none => none := by
  induction xs with
  | nil => intro P A; rfl
  | cons xy rest ih =>
    obtain ⟨x, y⟩ := xy
    intro P A
    simp only [List.cons_append, stepCfold]
    by_cases hmem : (y, x) ∈ P
    · simp only [if_pos hmem, List.append_eq, ih]
    · simp only [if_neg hmem]
      by_cases h1 : 0 < dval debts x y - dval debts y x
      · simp only [if_pos h1]
        cases lookupA names x <;> cases lookupA names y <;> simp [ih]
      · simp only [if_neg h1]
        by_cases h2 : dval debts x y - dval debts y x < 0
        · simp only [if_pos h2]
          cases lookupA names y <;> cases lookupA names x <;> simp [ih]
        · simp only [if_neg h2, List.append_eq, ih]

theorem stepCfold_acc (debts : Debts) (names : List (Nat × String))
    (vs : List (Nat × Nat)) :
    ∀ (P : List (Nat × Nat)) (A : List Settl),
      stepCfold debts names vs P A =
        (stepCfold debts names vs P []).map (fun r => (A ++ r.1, r.2)) := by
  induction vs with
  | nil => intro P A; simp [stepCfold]
  | cons xy rest ih =>
    obtain ⟨x, y⟩ := xy
    intro P A
    simp only [stepCfold]
    by_cases hmem : (y, x) ∈ P
    · simp only [if_pos hmem]
      exact ih P A
    · simp only [if_neg hmem]
      by_cases h1 : 0 < dval debts x y - dval debts y x
      · simp only [if_pos h1]
        cases lookupA names x <;> cases lookupA names y <;> simp
        rename_i nx ny
        rw [ih ((x, y) :: P) (A ++ [(nx, ny, dval debts x y - dval debts y x)]),
          ih ((x, y) :: P) ([(nx, ny, dval debts x y - dval debts y x)])]
        cases stepCfold debts names rest ((x, y) :: P) [] <;> simp
      · simp only [if_neg h1]
        by_cases h2 : dval debts x y - dval debts y x < 0
        · simp only [if_pos h2]
          cases lookupA names y <;> cases lookupA names x <;> simp
          rename_i ny nx
          rw [ih ((x, y) :: P) (A ++ [(ny, nx, dval debts y x - dval debts x y)]),
            ih ((x, y) :: P) ([(ny, nx, dval debts y x - dval debts x y)])]
          cases stepCfold debts names rest ((x, y) :: P) [] <;> simp
        · simp only [if_neg h2]
          exact ih ((x, y) :: P) A

theorem stepCfold_proc_subset (debts : Debts) (names : List (Nat × String))
    (vs : List (Nat × Nat)) :
    ∀ (P : List (Nat × Nat)) (A B : List Settl) (Q : List (Nat × Nat)),
      stepCfold debts names vs P A = some (B, Q) →
      (∀ w ∈ Q, w ∈ P ∨ w ∈ vs) ∧ (∀ w ∈ P, w ∈ Q) := by
  induction vs with
  | nil =>
    intro P A B Q h
    rw [stepCfold] at h
    simp only [Option.some.injEq, Prod.mk.injEq] at h
    obtain ⟨-, rfl⟩ := h
    exact ⟨fun w hw => Or.inl hw, fun w hw => hw⟩
  | cons xy rest ih =>
    obtain ⟨x, y⟩ := xy
    intro P A B Q h
    rw [stepCfold] at h
    have hlift : ∀ w : Nat × Nat, w ∈ P ∨ w ∈ rest → w ∈ P ∨ w ∈ (x, y) :: rest := by
      rintro w (hw | hw)
      · exact Or.inl hw
      · exact Or.inr (List.mem_cons_of_mem _ hw)
    have hlift2 : ∀ w : Nat × Nat, w ∈ (x, y) :: P ∨ w ∈ rest →
        w ∈ P ∨ w ∈ (x, y) :: rest := by
      rintro w (hw | hw)
      · rcases List.mem_cons.1 hw with hw | hw
        · exact Or.inr (by rw [hw]; exact List.mem_cons_self _ _)
        · exact Or.inl hw
      · exact Or.inr (List.mem_cons_of_mem _ hw)
    by_cases hmem : (y, x) ∈ P
    · rw [if_pos hmem] at h
      obtain ⟨h1, h2⟩ := ih P A B Q h
      exact ⟨fun w hw => hlift w (h1 w hw), h2⟩
    · rw [if_neg hmem] at h
      by_cases h1 : 0 < dval debts x y - dval debts y x
      · rw [if_pos h1] at h
        cases hx : lookupA names x with
        | none =>
          rw [hx] at h
          cases hy : lookupA names y <;> rw [hy] at h <;> simp at h
        | some nx =>
          cases hy : lookupA names y with
          | none => rw [hx, hy] at h; simp at h
          | some ny =>
            rw [hx, hy] at h
            obtain ⟨ha, hb⟩ := ih ((x, y) :: P) _ B Q h
            exact ⟨fun w hw => hlift2 w (ha w hw),
              fun w hw => hb w (List.mem_cons_of_mem _ hw)⟩
      · rw [if_neg h1] at h
        by_cases h2 : dval debts x y - dval debts y x < 0
        · rw [if_pos h2] at h
          cases hy : lookupA names y with
          | none =>
            rw [hy] at h
            cases hx : lookupA names x <;> rw [hx] at h <;> simp at h
          | some ny =>
            cases hx : lookupA names x with
            | none => rw [hy, hx] at h; simp at h
            | some nx =>
              rw [hy, hx] at h
              obtain ⟨ha, hb⟩ := ih ((x, y) :: P) _ B Q h
              exact ⟨fun w hw => hlift2 w (ha w hw),
                fun w hw => hb w (List.mem_cons_of_mem _ hw)⟩
        · rw [if_neg h2] at h
          obtain ⟨ha, hb⟩ := ih ((x, y) :: P) A B Q h
          exact ⟨fun w hw => hlift2 w (ha w hw),
            fun w hw => hb w (List.mem_cons_of_mem _ hw)⟩

theorem stepCfold_visited (debts : Debts) (names : List (Nat × String))
    (vs : List (Nat × Nat)) :
    ∀ (P : List (Nat × Nat)) (A B : List Settl) (Q : List (Nat × Nat)),
      stepCfold debts names vs P A = some (B, Q) →
      ∀ w ∈ vs, w ∈ Q ∨ (w.2, w.1) ∈ Q := by
  induction vs with
  | nil =>
    intro P A B Q h w hw
    exact absurd hw (List.not_mem_nil w)
  | cons xy rest ih =>
    obtain ⟨x, y⟩ := xy
    intro P A B Q h w hw
    rw [stepCfold] at h
    by_cases hmem : (y, x) ∈ P
    · rw [if_pos hmem] at h
      rcases List.mem_cons.1 hw with hw | hw
      · right
        rw [hw]
        exact (stepCfold_proc_subset debts names rest P A B Q h).2 _ hmem
      · exact ih P A B Q h w hw
    · rw [if_neg hmem] at h
      by_cases h1 : 0 < dval debts x y - dval debts y x
      · rw [if_pos h1] at h
        cases hx : lookupA names x with
        | none =>
          rw [hx] at h
          cases hy : lookupA names y <;> rw [hy] at h <;> simp at h
        | some nx =>
          cases hy : lookupA names y with
          | none => rw [hx, hy] at h; simp at h
          | some ny =>
            rw [hx, hy] at h
            rcases List.mem_cons.1 hw with hw | hw
            · left
              rw [hw]
              exact (stepCfold_proc_subset debts names rest _ _ B Q h).2 _
                (List.mem_cons_self _ _)
            · exact ih _ _ B Q h w hw
      · rw [if_neg h1] at h
        by_cases h2 : dval debts x y - dval debts y x < 0
        · rw [if_pos h2] at h
          cases hy : lookupA names y with
          | none =>
            rw [hy] at h
            cases hx : lookupA names x <;> rw [hx] at h <;> simp at h
          | some ny =>
            cases hx : lookupA names x with
            | none => rw [hy, hx] at h; simp at h
            | some nx =>
              rw [hy, hx] at h
              rcases List.mem_cons.1 hw with hw | hw
              · left
                rw [hw]
                exact (stepCfold_proc_subset debts names rest _ _ B Q h).2 _
                  (List.mem_cons_self _ _)
              · exact ih _ _ B Q h w hw
        · rw [if_neg h2] at h
          rcases List.mem_cons.1 hw with hw | hw
          · left
            rw [hw]
            exact (stepCfold_proc_subset debts names rest _ _ B Q h).2 _
              (List.mem_cons_self _ _)
          · exact ih _ _ B Q h w hw

theorem stepCfold_dval_congr (d1 d2 : Debts) (names : List (Nat × String))
    (hd : ∀ u v, dval d1 u v = dval d2 u v) (vs : List (Nat × Nat)) :
    ∀ (P : List (Nat × Nat)) (A : List Settl),
      stepCfold d1 names vs P A = stepCfold d2 names vs P A := by
  induction vs with
  | nil => intro P A; rfl
  | cons xy rest ih =>
    obtain ⟨x, y⟩ := xy
    intro P A
    simp only [stepCfold, hd x y, hd y x]
    by_cases hmem : (y, x) ∈ P
    · simp only [if_pos hmem]
      exact ih P A
    · simp only [if_neg hmem]
      by_cases h1 : 0 < dval d2 x y - dval d2 y x
      · simp only [if_pos h1]
        cases lookupA names x <;> cases lookupA names y <;> simp [ih]
      · simp only [if_neg h1]
        by_cases h2 : dval d2 x y - dval d2 y x < 0
        · simp only [if_pos h2]
          cases lookupA names y <;> cases lookupA names x <;> simp [ih]
        · simp only [if_neg h2]
          exact ih _ A

/-- Emissions of the Step C fold do not depend on processed-set entries that
cannot block any remaining visit: two runs whose processed sets agree on the
swapped versions of the remaining visits produce the same emissions, and
grow their processed sets by the same prefix. -/
theorem stepCfold_procCongr (debts : Debts) (names : List (Nat × String))
    (vs : List (Nat × Nat)) :
    ∀ (P1 P2 : List (Nat × Nat)) (em : List Settl) (Q1 : List (Nat × Nat)),
      (∀ w ∈ vs, ((w.2, w.1) ∈ P1 ↔ (w.2, w.1) ∈ P2)) →
      stepCfold debts names vs P1 [] = some (em, Q1) →
      ∃ Q2 D, stepCfold debts names vs P2 [] = some (em, Q2) ∧
        Q1 = D ++ P1 ∧ Q2 = D ++ P2 := by
  induction vs with
  | nil =>
    intro P1 P2 em Q1 hequiv h
    rw [stepCfold] at h
    simp only [Option.some.injEq, Prod.mk.injEq] at h
    obtain ⟨rfl, rfl⟩ := h
    exact ⟨P2, [], rfl, rfl, rfl⟩
  | cons xy rest ih =>
    obtain ⟨x, y⟩ := xy
    intro P1 P2 em Q1 hequiv h
    have hhead := hequiv (x, y) (List.mem_cons_self _ _)
    have hrest : ∀ w ∈ rest, ((w.2, w.1) ∈ P1 ↔ (w.2, w.1) ∈ P2) :=
      fun w hw => hequiv w (List.mem_cons_of_mem _ hw)
    have hrest' : ∀ w ∈ rest, ((w.2, w.1) ∈ (x, y) :: P1 ↔ (w.2, w.1) ∈ (x, y) :: P2) := by
      intro w hw
      simp only [List.mem_cons]
      exact or_congr Iff.rfl (hrest w hw)
    rw [stepCfold] at h
    by_cases hmem : (y, x) ∈ P1
    · rw [if_pos hmem] at h
      obtain ⟨Q2, D, hfold2, hQ1, hQ2⟩ := ih P1 P2 em Q1 hrest h
      refine ⟨Q2, D, ?_, hQ1, hQ2⟩
      rw [stepCfold, if_pos (hhead.1 hmem)]
      exact hfold2
    · rw [if_neg hmem] at h
      have hmem2 : (y, x) ∉ P2 := fun hc => hmem (hhead.2 hc)
      by_cases h1 : 0 < dval debts x y - dval debts y x
      · rw [if_pos h1] at h
        cases hx : lookupA names x with
        | none =>
          rw [hx] at h
          cases hy : lookupA names y <;> rw [hy] at h <;> simp at h
        | some nx =>
          cases hy : lookupA names y with
          | none => rw [hx, hy] at h; simp at h
          | some ny =>
            rw [hx, hy] at h
            have h2' : stepCfold debts names rest ((x, y) :: P1)
                ([] ++ [(nx, ny, dval debts x y - dval debts y x)]) = some (em, Q1) := h
            rw [stepCfold_acc] at h2'
            cases hres : stepCfold debts names rest ((x, y) :: P1) [] with
            | none => rw [hres] at h2'; simp at h2'
            | some r =>
              obtain ⟨em1, R1⟩ := r
              rw [hres] at h2'
              simp only [Option.map_some', Option.some.injEq] at h2'
              have hem : ([] ++ [(nx, ny, dval debts x y - dval debts y x)]) ++ em1 = em :=
                congrArg Prod.fst h2'
              have hQ : R1 = Q1 := congrArg Prod.snd h2' 
              obtain ⟨Q2, D, hfold2, hQ1, hQ2⟩ :=
                ih ((x, y) :: P1) ((x, y) :: P2) em1 R1 hrest' hres
              refine ⟨Q2, D ++ [(x, y)], ?_, ?_, ?_⟩
              · rw [stepCfold, if_neg hmem2, if_pos h1, hx, hy]
                show stepCfold debts names rest ((x, y) :: P2)
                    ([] ++ [(nx, ny, dval debts x y - dval debts y x)]) = some (em, Q2)
                rw [stepCfold_acc, hfold2]
                simp only [Option.map_some']
                rw [← hem]
              · rw [← hQ, hQ1]
                simp
              · rw [hQ2]
                simp
      · rw [if_neg h1] at h
        by_cases h2 : dval debts x y - dval debts y x < 0
        · rw [if_pos h2] at h
          cases hy : lookupA names y with
          | none =>
            rw [hy] at h
            cases hx : lookupA names x <;> rw [hx] at h <;> simp at h
          | some ny =>
            cases hx : lookupA names x with
            | none => rw [hy, hx] at h; simp at h
            | some nx =>
              rw [hy, hx] at h
              have h2' : stepCfold debts names rest ((x, y) :: P1)
                  ([] ++ [(ny, nx, -(dval debts x y - dval debts y x))]) = some (em, Q1) := h
              rw [stepCfold_acc] at h2'
              cases hres : stepCfold debts names rest ((x, y) :: P1) [] with
              | none => rw [hres] at h2'; simp at h2'
              | some r =>
                obtain ⟨em1, R1⟩ := r
                rw [hres] at h2'
                simp only [Option.map_some', Option.some.injEq] at h2'
                have hem : ([] ++ [(ny, nx, -(dval debts x y - dval debts y x))]) ++ em1
                    = em := congrArg Prod.fst h2'
                have hQ : R1 = Q1 := congrArg Prod.snd h2' 
                obtain ⟨Q2, D, hfold2, hQ1, hQ2⟩ :=
                  ih ((x, y) :: P1) ((x, y) :: P2) em1 R1 hrest' hres
                refine ⟨Q2, D ++ [(x, y)], ?_, ?_, ?_⟩
                · rw [stepCfold, if_neg hmem2, if_neg h1, if_pos h2, hy, hx]
                  show stepCfold debts names rest ((x, y) :: P2)
                      ([] ++ [(ny, nx, -(dval debts x y - dval debts y x))]) = some (em, Q2)
                  rw [stepCfold_acc, hfold2]
                  simp only [Option.map_some']
                  rw [← hem]
                · rw [← hQ, hQ1]
                  simp
                · rw [hQ2]
                  simp
        · rw [if_neg h2] at h
          obtain ⟨Q2, D, hfold2, hQ1, hQ2⟩ :=
            ih ((x, y) :: P1) ((x, y) :: P2) em Q1 hrest' h
          refine ⟨Q2, D ++ [(x, y)], ?_, ?_, ?_⟩
          · rw [stepCfold, if_neg hmem2, if_neg h1, if_neg h2]
            exact hfold2
          · rw [hQ1]
            simp
          · rw [hQ2]
            simp

theorem swap_eq_iff (w : Nat × Nat) (a b : Nat) : (w.2, w.1) = (a, b) ↔ w = (b, a) := by
  constructor
  · intro he
    have h1 : w.2 = a := congrArg Prod.fst he
    have h2 : w.1 = b := congrArg Prod.snd he
    rw [show w = (w.1, w.2) from rfl, h1, h2]
  · intro he
    rw [he]

/-- Core of the amended C5: inserting one visit of the pair (p, q), whose
forward debt value is zero, into the visit list (as Step B does when a zero
payment creates the edge) permutes the emitted settlements: at most the
pair's single entry moves to the earlier visit position. -/
theorem stepCfold_insert_perm (dB : Debts) (names : List (Nat × String))
    (p q : Nat) (L1 L2 : List (Nat × Nat))
    (hvis : visits dB = L1 ++ L2)
    (hnd : (L1 ++ (p, q) :: L2).Nodup)
    (hpq0 : dval dB p q = 0)
    (hqp0 : 0 ≤ dval dB q p)
    (fs fs' : List Settl) (Q0 Qf : List (Nat × Nat))
    (hrun0 : stepCfold dB names (L1 ++ L2) [] [] = some (fs, Q0))
    (hrun1 : stepCfold dB names (L1 ++ (p, q) :: L2) [] [] = some (fs', Qf)) :
    List.Perm fs' fs := by
  have hpqL1 : (p, q) ∉ L1 := fun hc =>
    (List.nodup_append.1 hnd).2.2 hc (List.mem_cons_self _ _)
  have hnd2 : ((p, q) :: L2).Nodup := (List.nodup_append.1 hnd).2.1
  have hpqL2 : (p, q) ∉ L2 := (List.nodup_cons.1 hnd2).1
  have hndL2 : L2.Nodup := (List.nodup_cons.1 hnd2).2
  rw [stepCfold_append] at hrun0 hrun1
  cases hL1 : stepCfold dB names L1 [] [] with
  | none =>
    rw [hL1] at hrun0
    simp at hrun0
  | some r1 =>
    obtain ⟨A1, P1⟩ := r1
    rw [hL1] at hrun0 hrun1
    have hrun0' : stepCfold dB names L2 P1 A1 = some (fs, Q0) := hrun0
    have hrun1' : stepCfold dB names ((p, q) :: L2) P1 A1 = some (fs', Qf) := hrun1
    have hP1sub : ∀ w ∈ P1, w ∈ L1 := by
      intro w hw
      rcases (stepCfold_proc_subset dB names L1 [] [] A1 P1 hL1).1 w hw with hc | hc
      · exact absurd hc (List.not_mem_nil w)
      · exact hc
    have hpqP1 : (p, q) ∉ P1 := fun hc => hpqL1 (hP1sub _ hc)
    rw [stepCfold] at hrun1'
    by_cases hskip : (q, p) ∈ P1
    · rw [if_pos hskip] at hrun1'
      have heq : (fs', Qf) = (fs, Q0) :=
        Option.some_injective _ (by rw [← hrun1', hrun0'])
      have hfe : fs' = fs := congrArg Prod.fst heq
      subst hfe
      exact List.Perm.refl _
    · rw [if_neg hskip] at hrun1'
      have hnet1 : ¬ 0 < dval dB p q - dval dB q p := by
        rw [hpq0]
        linarith
      rw [if_neg hnet1] at hrun1'
      by_cases hqpz : dval dB q p = 0
      · -- the inserted visit emits nothing
        have hnet2 : ¬ dval dB p q - dval dB q p < 0 := by
          rw [hpq0, hqpz]
          norm_num
        rw [if_neg hnet2] at hrun1'
        by_cases hqpL2 : (q, p) ∈ L2
        · obtain ⟨M1, M2, hM⟩ := List.append_of_mem hqpL2
          subst hM
          have hqpM1 : (q, p) ∉ M1 := fun hc =>
            (List.nodup_append.1 hndL2).2.2 hc (List.mem_cons_self _ _)
          have hqpM2 : (q, p) ∉ M2 :=
            (List.nodup_cons.1 (List.nodup_append.1 hndL2).2.1).1
          have hpqM1 : (p, q) ∉ M1 := fun hc => hpqL2 (List.mem_append_left _ hc)
          have hpqM2 : (p, q) ∉ M2 := fun hc =>
            hpqL2 (List.mem_append_right _ (List.mem_cons_of_mem _ hc))
          rw [stepCfold_append] at hrun1' hrun0'
          cases hM1a : stepCfold dB names M1 ((p, q) :: P1) [] with
          | none =>
            rw [stepCfold_acc, hM1a] at hrun1'
            simp at hrun1'
          | some r =>
            obtain ⟨em1, R1⟩ := r
            have hequivM1 : ∀ w ∈ M1, ((w.2, w.1) ∈ (p, q) :: P1 ↔ (w.2, w.1) ∈ P1) := by
              intro w hw
              have hne : (w.2, w.1) ≠ (p, q) := fun he =>
                hqpM1 ((swap_eq_iff w p q).1 he ▸ hw)
              simp only [List.mem_cons]
              exact or_iff_right hne
            obtain ⟨R0, D, hM1b, hR1, hR0⟩ :=
              stepCfold_procCongr dB names M1 ((p, q) :: P1) P1 em1 R1 hequivM1 hM1a
            rw [stepCfold_acc, hM1a] at hrun1'
            rw [stepCfold_acc, hM1b] at hrun0'
            have hrun1'' : stepCfold dB names ((q, p) :: M2) R1 (A1 ++ em1) =
                some (fs', Qf) := hrun1'
            have hrun0'' : stepCfold dB names ((q, p) :: M2) R0 (A1 ++ em1) =
                some (fs, Q0) := hrun0'
            have hpqR0 : (p, q) ∉ R0 := by
              intro hc
              rcases (stepCfold_proc_subset dB names M1 P1 [] em1 R0 hM1b).1 _ hc
                with hc2 | hc2
              · exact hpqP1 hc2
              · exact hpqM1 hc2
            have hpqR1 : (p, q) ∈ R1 := by
              rw [hR1]
              exact List.mem_append_right _ (List.mem_cons_self _ _)
            rw [stepCfold, if_pos hpqR1] at hrun1''
            rw [stepCfold, if_neg hpqR0] at hrun0''
            have hz1 : ¬ 0 < dval dB q p - dval dB p q := by
              rw [hpq0, hqpz]
              norm_num
            have hz2 : ¬ dval dB q p - dval dB p q < 0 := by
              rw [hpq0, hqpz]
              norm_num
            rw [if_neg hz1, if_neg hz2] at hrun0''
            have hequivM2 : ∀ w ∈ M2,
                ((w.2, w.1) ∈ R1 ↔ (w.2, w.1) ∈ (q, p) :: R0) := by
              intro w hw
              have hne1 : (w.2, w.1) ≠ (p, q) := fun he =>
                hqpM2 ((swap_eq_iff w p q).1 he ▸ hw)
              have hne2 : (w.2, w.1) ≠ (q, p) := fun he =>
                hpqM2 ((swap_eq_iff w q p).1 he ▸ hw)
              rw [hR1, hR0]
              simp only [List.mem_cons, List.mem_append]
              constructor
              · rintro (hc | hc | hc)
                · exact Or.inr (Or.inl hc)
                · exact absurd hc hne1
                · exact Or.inr (Or.inr hc)
              · rintro (hc | hc | hc)
                · exact absurd hc hne2
                · exact Or.inl hc
                · exact Or.inr (Or.inr hc)
            rw [stepCfold_acc] at hrun1'' hrun0''
            cases hM2a : stepCfold dB names M2 R1 [] with
            | none =>
              rw [hM2a] at hrun1''
              simp at hrun1''
            | some r2 =>
              obtain ⟨em2, S1⟩ := r2
              obtain ⟨S2, D2, hM2b, -, -⟩ :=
                stepCfold_procCongr dB names M2 R1 ((q, p) :: R0) em2 S1 hequivM2 hM2a
              rw [hM2a] at hrun1''
              rw [hM2b] at hrun0''
              simp only [Option.map_some', Option.some.injEq] at hrun1'' hrun0''
              have hfs' : (A1 ++ em1) ++ em2 = fs' := congrArg Prod.fst hrun1''
              have hfs : (A1 ++ em1) ++ em2 = fs := congrArg Prod.fst hrun0''
              have hfe : fs' = fs := hfs'.symm.trans hfs
              subst hfe
              exact List.Perm.refl _
        · have hequivL2 : ∀ w ∈ L2, ((w.2, w.1) ∈ (p, q) :: P1 ↔ (w.2, w.1) ∈ P1) := by
            intro w hw
            have hne : (w.2, w.1) ≠ (p, q) := fun he =>
              hqpL2 ((swap_eq_iff w p q).1 he ▸ hw)
            simp only [List.mem_cons]
            exact or_iff_right hne
          rw [stepCfold_acc] at hrun1' hrun0'
          cases hL2a : stepCfold dB names L2 ((p, q) :: P1) [] with
          | none =>
            rw [hL2a] at hrun1'
            simp at hrun1'
          | some r =>
            obtain ⟨em2, S1⟩ := r
            obtain ⟨S2, D, hL2b, -, -⟩ :=
              stepCfold_procCongr dB names L2 ((p, q) :: P1) P1 em2 S1 hequivL2 hL2a
            rw [hL2a] at hrun1'
            rw [hL2b] at hrun0'
            simp only [Option.map_some', Option.some.injEq] at hrun1' hrun0'
            have hfs' : A1 ++ em2 = fs' := congrArg Prod.fst hrun1'
            have hfs : A1 ++ em2 = fs := congrArg Prod.fst hrun0'
            have hfe : fs' = fs := hfs'.symm.trans hfs
            subst hfe
            exact List.Perm.refl _
      · -- the inserted visit emits the pair's entry early
        have hqppos : 0 < dval dB q p := lt_of_le_of_ne hqp0 (Ne.symm hqpz)
        have hnet2 : dval dB p q - dval dB q p < 0 := by
          rw [hpq0]
          linarith
        rw [if_pos hnet2] at hrun1'
        cases hnq : lookupA names q with
        | none =>
          rw [hnq] at hrun1'
          cases hnp : lookupA names p <;> rw [hnp] at hrun1' <;> simp at hrun1'
        | some nq =>
          cases hnp : lookupA names p with
          | none =>
            rw [hnq, hnp] at hrun1'
            simp at hrun1'
          | some np =>
            rw [hnq, hnp] at hrun1'
            have hqpvis : (q, p) ∈ L1 ++ L2 := by
              rw [← hvis]
              exact mem_visits_of_dval_ne dB q p hqpz
            have hqpL2 : (q, p) ∈ L2 := by
              rcases List.mem_append.1 hqpvis with hc | hc
              · exfalso
                rcases stepCfold_visited dB names L1 [] [] A1 P1 hL1 (q, p) hc
                  with hc2 | hc2
                · exact hskip hc2
                · exact hpqP1 hc2
              · exact hc
            obtain ⟨M1, M2, hM⟩ := List.append_of_mem hqpL2
            subst hM
            have hqpM1 : (q, p) ∉ M1 := fun hc =>
              (List.nodup_append.1 hndL2).2.2 hc (List.mem_cons_self _ _)
            have hqpM2 : (q, p) ∉ M2 :=
              (List.nodup_cons.1 (List.nodup_append.1 hndL2).2.1).1
            have hpqM1 : (p, q) ∉ M1 := fun hc => hpqL2 (List.mem_append_left _ hc)
            have hpqM2 : (p, q) ∉ M2 := fun hc =>
              hpqL2 (List.mem_append_right _ (List.mem_cons_of_mem _ hc))
            have hrun1e : stepCfold dB names (M1 ++ (q, p) :: M2) ((p, q) :: P1)
                (A1 ++ [(nq, np, -(dval dB p q - dval dB q p))]) = some (fs', Qf) :=
              hrun1'
            rw [stepCfold_append] at hrun1e hrun0'
            cases hM1a : stepCfold dB names M1 ((p, q) :: P1) [] with
            | none =>
              rw [stepCfold_acc, hM1a] at hrun1e
              simp at hrun1e
            | some r =>
              obtain ⟨em1, R1⟩ := r
              have hequivM1 : ∀ w ∈ M1,
                  ((w.2, w.1) ∈ (p, q) :: P1 ↔ (w.2, w.1) ∈ P1) := by
                intro w hw
                have hne : (w.2, w.1) ≠ (p, q) := fun he =>
                  hqpM1 ((swap_eq_iff w p q).1 he ▸ hw)
                simp only [List.mem_cons]
                exact or_iff_right hne
              obtain ⟨R0, D, hM1b, hR1, hR0⟩ :=
                stepCfold_procCongr dB names M1 ((p, q) :: P1) P1 em1 R1 hequivM1 hM1a
              rw [stepCfold_acc, hM1a] at hrun1e
              rw [stepCfold_acc, hM1b] at hrun0'
              have hrun1f : stepCfold dB names ((q, p) :: M2) R1
                  ((A1 ++ [(nq, np, -(dval dB p q - dval dB q p))]) ++ em1) =
                  some (fs', Qf) := hrun1e
              have hrun0f : stepCfold dB names ((q, p) :: M2) R0 (A1 ++ em1) =
                  some (fs, Q0) := hrun0'
              have hpqR0 : (p, q) ∉ R0 := by
                intro hc
                rcases (stepCfold_proc_subset dB names M1 P1 [] em1 R0 hM1b).1 _ hc
                  with hc2 | hc2
                · exact hpqP1 hc2
                · exact hpqM1 hc2
              have hpqR1 : (p, q) ∈ R1 := by
                rw [hR1]
                exact List.mem_append_right _ (List.mem_cons_self _ _)
              rw [stepCfold, if_pos hpqR1] at hrun1f
              rw [stepCfold, if_neg hpqR0] at hrun0f
              have hnet0 : 0 < dval dB q p - dval dB p q := by
                rw [hpq0]
                linarith
              rw [if_pos hnet0, hnq, hnp] at hrun0f
              have hrun0g : stepCfold dB names M2 ((q, p) :: R0)
                  ((A1 ++ em1) ++ [(nq, np, dval dB q p - dval dB p q)]) =
                  some (fs, Q0) := hrun0f
              have hequivM2 : ∀ w ∈ M2,
                  ((w.2, w.1) ∈ R1 ↔ (w.2, w.1) ∈ (q, p) :: R0) := by
                intro w hw
                have hne1 : (w.2, w.1) ≠ (p, q) := fun he =>
                  hqpM2 ((swap_eq_iff w p q).1 he ▸ hw)
                have hne2 : (w.2, w.1) ≠ (q, p) := fun he =>
                  hpqM2 ((swap_eq_iff w q p).1 he ▸ hw)
                rw [hR1, hR0]
                simp only [List.mem_cons, List.mem_append]
                constructor
                · rintro (hc | hc | hc)
                  · exact Or.inr (Or.inl hc)
                  · exact absurd hc hne1
                  · exact Or.inr (Or.inr hc)
                · rintro (hc | hc | hc)
                  · exact absurd hc hne2
                  · exact Or.inl hc
                  · exact Or.inr (Or.inr hc)
              rw [stepCfold_acc] at hrun1f hrun0g
              cases hM2a : stepCfold dB names M2 R1 [] with
              | none =>
                rw [hM2a] at hrun1f
                simp at hrun1f
              | some r2 =>
                obtain ⟨em2, S1⟩ := r2
                obtain ⟨S2, D2, hM2b, -, -⟩ :=
                  stepCfold_procCongr dB names M2 R1 ((q, p) :: R0) em2 S1 hequivM2 hM2a
                rw [hM2a] at hrun1f
                rw [hM2b] at hrun0g
                simp only [Option.map_some', Option.some.injEq] at hrun1f hrun0g
                have hfs' : ((A1 ++ [(nq, np, -(dval dB p q - dval dB q p))]) ++ em1)
                    ++ em2 = fs' := congrArg Prod.fst hrun1f
                have hfs : ((A1 ++ em1) ++ [(nq, np, dval dB q p - dval dB p q)])
                    ++ em2 = fs := congrArg Prod.fst hrun0g
                rw [← hfs', ← hfs]
                have hval : -(dval dB p q - dval dB q p) =
                    dval dB q p - dval dB p q := by ring
                rw [hval]
                have hperm : List.Perm
                    ([(nq, np, dval dB q p - dval dB p q)] ++ (em1 ++ em2))
                    ((em1 ++ [(nq, np, dval dB q p - dval dB p q)]) ++ em2) := by
                  simp only [List.singleton_append, List.append_assoc]
                  exact List.perm_middle.symm
                have hstep1 : ((A1 ++ [(nq, np, dval dB q p - dval dB p q)]) ++ em1)
                    ++ em2 =
                    A1 ++ ([(nq, np, dval dB q p - dval dB p q)] ++ (em1 ++ em2)) := by
                  simp [List.append_assoc]
                have hstep2 : A1 ++ ((em1 ++ [(nq, np, dval dB q p - dval dB p q)])
                    ++ em2) =
                    ((A1 ++ em1) ++ [(nq, np, dval dB q p - dval dB p q)]) ++ em2 := by
                  simp [List.append_assoc]
                rw [hstep1, ← hstep2]
                exact List.Perm.append_left A1 hperm

theorem wf_setPair (d : Debts) (a b : Nat) (val : ℚ) (hwf : WFDebts d) :
    WFDebts (setA d a (setA (innerOf d a) b val)) := by
  constructor
  · exact keysA_setA_nodup d a _ hwf.1
  · intro kv hkv
    rcases mem_setA d a _ kv hkv with hm | hm
    · exact hwf.2 kv hm
    · rw [hm]
      apply keysA_setA_nodup
      unfold innerOf
      cases hl : lookupA d a with
      | none => simp
      | some inn => exact hwf.2 (a, inn) (lookupA_mem hl)

theorem wf_addDebt (d : Debts) (a b : Nat) (s : ℚ) (hwf : WFDebts d) :
    WFDebts (addDebt d a b s) := wf_setPair d a b _ hwf

theorem wf_applyPayment (d : Debts) (pay : Payment) (hwf : WFDebts d) :
    WFDebts (applyPayment d pay) := by
  simp only [applyPayment, reverseIfNeg]
  split
  · exact wf_setPair _ _ _ _ (wf_setPair _ _ _ _ (wf_setPair d _ _ _ hwf))
  · exact wf_setPair d _ _ _ hwf

theorem wf_stepAPart (pid : Nat) (dsc : String) (st : StepAState) (pr : Nat × ℚ)
    (hwf : WFDebts st.1) : WFDebts (stepAPart pid dsc st pr).1 := by
  rw [stepAPart]
  split
  · exact wf_addDebt st.1 pr.1 pid pr.2 hwf
  · exact hwf

theorem wf_partFold (pid : Nat) (dsc : String) :
    ∀ (prs : List (Nat × ℚ)) (st : StepAState), WFDebts st.1 →
      WFDebts (prs.foldl (stepAPart pid dsc) st).1 := by
  intro prs
  induction prs with
  | nil => intro st h; exact h
  | cons pr rest ih =>
    intro st h
    exact ih _ (wf_stepAPart pid dsc st pr h)

theorem wf_expFold :
    ∀ (es : List Expense) (st : StepAState), WFDebts st.1 →
      WFDebts (es.foldl stepAExpense st).1 := by
  intro es
  induction es with
  | nil => intro st h; exact h
  | cons e rest ih =>
    intro st h
    exact ih _ (wf_partFold e.payerId e.desc e.participants st h)

theorem wf_stepA (es : List Expense) : WFDebts (stepA es).1 :=
  wf_expFold es ([], [])
    ⟨List.nodup_nil, fun kv h => absurd h (List.not_mem_nil kv)⟩

theorem wf_stepB :
    ∀ (ps : List Payment) (d : Debts), WFDebts d → WFDebts (stepB d ps) := by
  intro ps
  induction ps with
  | nil => intro d h; exact h
  | cons pay rest ih =>
    intro d h
    exact ih _ (wf_applyPayment d pay h)

theorem dvalNonneg_stepAPart (pid : Nat) (dsc : String) (st : StepAState) (pr : Nat × ℚ)
    (hd : DvalNonneg st.1) (hpr : 0 ≤ pr.2) : DvalNonneg (stepAPart pid dsc st pr).1 := by
  rw [stepAPart]
  split
  · exact dvalNonneg_addDebt st.1 pr.1 pid pr.2 hd hpr
  · exact hd

theorem dvalNonneg_partFold (pid : Nat) (dsc : String) :
    ∀ (prs : List (Nat × ℚ)), (∀ pr ∈ prs, 0 ≤ pr.2) →
      ∀ st : StepAState, DvalNonneg st.1 →
        DvalNonneg (prs.foldl (stepAPart pid dsc) st).1 := by
  intro prs
  induction prs with
  | nil => intro _ st h; exact h
  | cons pr rest ih =>
    intro hprs st h
    exact ih (fun x hx => hprs x (List.mem_cons_of_mem _ hx)) _
      (dvalNonneg_stepAPart pid dsc st pr h (hprs pr (List.mem_cons_self _ _)))

theorem dvalNonneg_expFold :
    ∀ (es : List Expense), (∀ e ∈ es, ∀ pr ∈ e.participants, 0 ≤ pr.2) →
      ∀ st : StepAState, DvalNonneg st.1 →
        DvalNonneg (es.foldl stepAExpense st).1 := by
  intro es
  induction es with
  | nil => intro _ st h; exact h
  | cons e rest ih =>
    intro hes st h
    exact ih (fun x hx => hes x (List.mem_cons_of_mem _ hx)) _
      (dvalNonneg_partFold e.payerId e.desc e.participants
        (hes e (List.mem_cons_self _ _)) st h)

theorem dvalNonneg_stepA (es : List Expense)
    (hs : ∀ e ∈ es, ∀ pr ∈ e.participants, 0 ≤ pr.2) :
    DvalNonneg (stepA es).1 :=
  dvalNonneg_expFold es hs ([], []) (fun _ _ => le_refl 0)

theorem dvalNonneg_stepB :
    ∀ (ps : List Payment) (d : Debts), DvalNonneg d → DvalNonneg (stepB d ps) := by
  intro ps
  induction ps with
  | nil => intro d h; exact h
  | cons pay rest ih =>
    intro d h
    exact ih _ (dvalNonneg_applyPayment d pay h)

/-- Appending one zero payment from p to q permutes the final settlements of
Step C: by the three normal forms of `applyPayment` on a zero amount, the
debt values are unchanged and the visit list either stays equal or gains the
single visit (p, q), which `stepCfold_insert_perm` absorbs. -/
theorem stepC_applyPayment_zero_perm (d : Debts) (names : List (Nat × String))
    (p q : Nat) (hwf : WFDebts d) (hnn : DvalNonneg d)
    (fs fs' : List Settl)
    (h0 : stepC d names = some fs)
    (h1 : stepC (applyPayment d ⟨p, q, 0⟩) names = some fs') :
    List.Perm fs' fs := by
  cases hp : lookupA d p with
  | some inn =>
    cases hq : lookupA inn q with
    | some c =>
      rw [applyPayment_zero_idem d p q inn c hp hq (hnn p q)] at h1
      have hfe : fs' = fs := Option.some_injective _ (h1.symm.trans h0)
      subst hfe
      exact List.Perm.refl _
    | none =>
      have hqk : q ∉ keysA inn := (lookupA_eq_none_iff inn q).1 hq
      rw [applyPayment_zero_newInner d p q inn hp hqk] at h1
      obtain ⟨L1, L2, hv0, hv1⟩ := visits_zero_newInner d p q inn hp hqk hwf.1
      have hdc : ∀ u v, dval (setA d p (inn ++ [(q, 0)])) u v = dval d u v :=
        dval_zero_newInner d p q inn hp hqk
      have hinnN : (keysA inn).Nodup := hwf.2 (p, inn) (lookupA_mem hp)
      have hwf1 : WFDebts (setA d p (inn ++ [(q, 0)])) := by
        constructor
        · exact keysA_setA_nodup d p _ hwf.1
        · intro kv hkv
          rcases mem_setA d p _ kv hkv with hm | hm
          · exact hwf.2 kv hm
          · rw [hm]
            show (keysA (inn ++ [(q, 0)])).Nodup
            rw [keysA_append]
            refine List.nodup_append.2 ⟨hinnN, List.nodup_singleton q, ?_⟩
            intro a ha hb
            have hb2 : a ∈ [q] := hb
            rw [List.mem_singleton] at hb2
            exact hqk (hb2 ▸ ha)
      have hnd : (L1 ++ (p, q) :: L2).Nodup :=
        hv1 ▸ visits_nodup _ hwf1.1 hwf1.2
      have hpq0 : dval d p q = 0 := by
        have hinn : innerOf d p = inn := by rw [innerOf, hp]; rfl
        rw [dval, hinn, hq]
        rfl
      rw [stepC, hv1, stepCfold_dval_congr _ d names hdc] at h1
      rw [stepC, hv0] at h0
      cases hf0 : stepCfold d names (L1 ++ L2) [] [] with
      | none => rw [hf0] at h0; simp at h0
      | some r0 =>
        cases hf1 : stepCfold d names (L1 ++ (p, q) :: L2) [] [] with
        | none => rw [hf1] at h1; simp at h1
        | some r1 =>
          rw [hf0] at h0
          rw [hf1] at h1
          simp only [Option.map_some', Option.some.injEq] at h0 h1
          obtain ⟨fs0, Q0⟩ := r0
          obtain ⟨fs1, Qf⟩ := r1
          have hperm := stepCfold_insert_perm d names p q L1 L2 hv0 hnd hpq0
            (hnn q p) fs0 fs1 Q0 Qf hf0 hf1
          rw [← h0, ← h1]
          exact hperm
  | none =>
    have hpk : p ∉ keysA d := (lookupA_eq_none_iff d p).1 hp
    rw [applyPayment_zero_newOuter d p q hp] at h1
    have hdc : ∀ u v, dval (d ++ [(p, [(q, 0)])]) u v = dval d u v :=
      dval_zero_newOuter d p q hp
    have hv1 : visits (d ++ [(p, [(q, 0)])]) = visits d ++ (p, q) :: [] :=
      visits_zero_newOuter d p q hp
    have hpq0 : dval d p q = 0 := by
      rw [dval, innerOf, hp]
      rfl
    have hpqv : (p, q) ∉ visits d := fun hc =>
      hpk ((mem_visits_iff d p q).1 hc).1
    have hnd : (visits d ++ (p, q) :: []).Nodup := by
      refine List.nodup_append.2 ⟨visits_nodup d hwf.1 hwf.2,
        List.nodup_singleton (p, q), ?_⟩
      intro a ha hb
      rw [List.mem_singleton] at hb
      exact hpqv (hb ▸ ha)
    rw [stepC, hv1, stepCfold_dval_congr _ d names hdc] at h1
    rw [stepC] at h0
    have h0' : (stepCfold d names (visits d ++ []) [] []).map Prod.fst = some fs := by
      rw [List.append_nil]
      exact h0
    cases hf0 : stepCfold d names (visits d ++ []) [] [] with
    | none => rw [hf0] at h0'; simp at h0'
    | some r0 =>
      cases hf1 : stepCfold d names (visits d ++ (p, q) :: []) [] [] with
      | none => rw [hf1] at h1; simp at h1
      | some r1 =>
        rw [hf0] at h0'
        rw [hf1] at h1
        simp only [Option.map_some', Option.some.injEq] at h0' h1
        obtain ⟨fs0, Q0⟩ := r0
        obtain ⟨fs1, Qf⟩ := r1
        have hperm := stepCfold_insert_perm d names p q (visits d) []
          (List.append_nil (visits d)).symm hnd hpq0
          (hnn q p) fs0 fs1 Q0 Qf hf0 hf1
        rw [← h0', ← h1]
        exact hperm

/-- C5 (amended): recording an additional payment of amount 0 (appended after
the existing payments) leaves the final settlements unchanged as a multiset,
for any snapshot whose recorded shares are non-negative: the settlement list
of the run with the zero payment is a permutation of the settlement list
without it.  (Sequence equality fails: the zero payment can create a fresh
debt edge that changes the Step C visit order, see the counterexample.) -/
theorem zero_payment_perm (s : Snapshot) (p q : Nat)
    (hs : SharesNonneg s) (r r' : EngineResult)
    (h0 : compute_settlements s = some r)
    (h1 : compute_settlements ⟨s.expenses, s.payments ++ [⟨p, q, 0⟩], s.idToName⟩
      = some r') :
    List.Perm r'.1 r.1 := by
  obtain ⟨hC0, -, -⟩ := compute_settlements_inv s r h0
  obtain ⟨hC1, -, -⟩ := compute_settlements_inv _ r' h1
  have hC1' : stepC (stepB (stepA s.expenses).1 (s.payments ++ [⟨p, q, 0⟩]))
      s.idToName = some r'.1 := hC1
  have hsplit : stepB (stepA s.expenses).1 (s.payments ++ [(⟨p, q, 0⟩ : Payment)]) =
      applyPayment (stepB (stepA s.expenses).1 s.payments) ⟨p, q, 0⟩ := by
    rw [stepB, stepB, List.foldl_append]
    rfl
  rw [hsplit] at hC1'
  exact stepC_applyPayment_zero_perm (stepB (stepA s.expenses).1 s.payments)
    s.idToName p q (wf_stepB s.payments _ (wf_stepA s.expenses))
    (dvalNonneg_stepB s.payments _ (dvalNonneg_stepA s.expenses hs))
    r.1 r'.1 hC0 hC1'

/-- Witness for the amended C5: one expense of 10 owed by user 2 to user 1,
and a zero payment from 2 to 1; both runs settle as B pays A 10. -/
theorem zero_payment_perm_witness :
    SharesNonneg (⟨[⟨1, "d", [(2, (10 : ℚ))]⟩], [], [(1, "A"), (2, "B")]⟩ : Snapshot) ∧
    List.Perm
      ((([("B", "A", (10 : ℚ))], [("B", "A", (10 : ℚ), "d")],
        [("B", (-10 : ℚ)), ("A", (10 : ℚ))]) : EngineResult).1)
      ((([("B", "A", (10 : ℚ))], [("B", "A", (10 : ℚ), "d")],
        [("B", (-10 : ℚ)), ("A", (10 : ℚ))]) : EngineResult).1) :=
  ⟨by
    intro e he pr hpr
    simp only [List.mem_singleton] at he
    subst he
    simp only [List.mem_singleton] at hpr
    subst hpr
    norm_num,
   zero_payment_perm ⟨[⟨1, "d", [(2, (10 : ℚ))]⟩], [], [(1, "A"), (2, "B")]⟩ 2 1
    (by
      intro e he pr hpr
      simp only [List.mem_singleton] at he
      subst he
      simp only [List.mem_singleton] at hpr
      subst hpr
      norm_num)
    ([("B", "A", (10 : ℚ))], [("B", "A", (10 : ℚ), "d")],
      [("B", (-10 : ℚ)), ("A", (10 : ℚ))])
    ([("B", "A", (10 : ℚ))], [("B", "A", (10 : ℚ), "d")],
      [("B", (-10 : ℚ)), ("A", (10 : ℚ))])
    (by norm_num [compute_settlements, stepA, stepAExpense, stepAPart, addDebt,
      stepB, applyPayment, reverseIfNeg, stepC, visits, stepCfold, renderReadable,
      netBalance, netBalanceAux, innerOf, dval, keysA, setA, lookupA, setA_cons,
      lookupA_cons] <;> simp)
    (by norm_num [compute_settlements, stepA, stepAExpense, stepAPart, addDebt,
      stepB, applyPayment, reverseIfNeg, stepC, visits, stepCfold, renderReadable,
      netBalance, netBalanceAux, innerOf, dval, keysA, setA, lookupA, setA_cons,
      lookupA_cons] <;> simp)⟩

end BetterSplitwise
